import Mathlib

set_option maxHeartbeats 1000000

/-!
Shallow embedding of `scripts/build_cross_repo_map.py`: the reference parser,
relation classifier, Go-module alias collector, pattern/extractor builder,
match resolver and edge aggregator, together with proofs of the spec's
testable properties.  Strings are modelled as `List Char` (`Str`); Python
dicts that are mutated in insertion order are modelled as association lists
whose update operation preserves the position of an existing key.
-/

namespace CrossRepoMap

/-- Python strings, modelled as lists of characters. -/
abbrev Str := List Char

/-- The ASCII whitespace characters stripped by Python's `str.strip()`. -/
def pyIsSpace (c : Char) : Bool :=
  c = ' ' || c = '\t' || c = '\n' || c = '\r' || c = '\x0b' || c = '\x0c'

/-- Python `value.strip()`: drop whitespace from both ends. -/
def pyStrip (s : Str) : Str :=
  ((s.dropWhile pyIsSpace).reverse.dropWhile pyIsSpace).reverse

/-- The text after the last `/` of `s`; this is `s.split("/")[-1]` in Python
(the whole string when no slash occurs, empty when `s` ends with a slash). -/
def lastSegment (s : Str) : Str :=
  ((s.reverse.takeWhile (fun c => c != '/')).reverse)

/-- Boolean test that `p` is a prefix of `s`. -/
def strHasPre (p s : Str) : Bool :=
  match p, s with
  | [], _ => true
  | _ :: _, [] => false
  | a :: as, b :: bs => a = b && strHasPre as bs

/-- Embedding of `classify_relation_type` (source lines 123-139): normalize
backslashes to slashes, look at the base name, fall through to a prefix
test for workflow files and finally to the tag `reference`. -/
def classify_relation_type (relative_path : Str) : Str :=
  let rel : Str := relative_path.map (fun c => if c = '\\' then '/' else c)
  let base := lastSegment rel
  if base = "go.mod".toList then "go_module".toList
  else if base ∈ ["package.json".toList, "package-lock.json".toList,
      "pnpm-lock.yaml".toList, "yarn.lock".toList] then
    "node_dependency".toList
  else if base ∈ ["requirements.txt".toList, "pyproject.toml".toList,
      "poetry.lock".toList, "Pipfile".toList, "Pipfile.lock".toList] then
    "python_dependency".toList
  else if base = ".gitmodules".toList then "git_submodule".toList
  else if strHasPre (".github/workflows/").toList rel then "github_action".toList
  else if base ∈ ["Dockerfile".toList, "docker-compose.yaml".toList,
      "docker-compose.yml".toList] then
    "container_reference".toList
  else "reference".toList

/-- The seven relation-type tags the classifier can produce. -/
def relationTags : List Str :=
  ["go_module".toList, "node_dependency".toList, "python_dependency".toList,
   "git_submodule".toList, "github_action".toList, "container_reference".toList,
   "reference".toList]

theorem classify_mem_tags (p : Str) : classify_relation_type p ∈ relationTags := by
  simp only [classify_relation_type, relationTags]
  split_ifs <;> simp

/-- C8: `classify_relation_type` is a pure function of the path; on the three
sample paths it returns `go_module`, `github_action` and `reference`
respectively, and on every path it returns one of the seven fixed tags,
falling back to `reference` (it never fails). -/
theorem C8_classification :
    classify_relation_type ("path/go.mod").toList = ("go_module").toList ∧
    classify_relation_type (".github/workflows/ci.yml").toList = ("github_action").toList ∧
    classify_relation_type ("src/main.py").toList = ("reference").toList ∧
    ∀ p : Str, classify_relation_type p ∈ relationTags := by
  refine ⟨by decide, by decide, by decide, classify_mem_tags⟩

/-! Edge aggregator (source lines 389-448).  The Python `edges` dict keyed by
`(source, target)` is modelled as an insertion-ordered association list whose
update preserves the position of an existing key; `relation_type_counts`
(a `defaultdict(int)`) and `owners_observed` (a `set`) are modelled the same
way. -/

/-- One evidence record appended to an edge. -/
structure Evidence where
  file : Str
  line : Nat
  relation : Str
  snippet : Str
deriving DecidableEq

/-- The aggregate record per `(source, target)` pair. -/
structure Edge where
  source : Str
  target : Str
  occurrences : Nat
  rtc : List (Str × Nat)
  owners : List Str
  evidence : List Evidence
deriving DecidableEq

abbrev EdgeKey := Str × Str

abbrev EdgeMap := List (EdgeKey × Edge)

/-- Dict lookup: `edges.get(key)`. -/
def mapGet (m : EdgeMap) (k : EdgeKey) : Option Edge :=
  match m with
  | [] => none
  | (k', e) :: rest => if k' = k then some e else mapGet rest k

/-- Dict store: `edges[key] = edge`, keeping the position of an existing key
and appending a fresh key at the end (Python insertion order). -/
def mapSet (m : EdgeMap) (k : EdgeKey) (e : Edge) : EdgeMap :=
  match m with
  | [] => [(k, e)]
  | (k', e') :: rest => if k' = k then (k, e) :: rest else (k', e') :: mapSet rest k e

/-- The `defaultdict(int)` increment `rtc[relation_type] += 1`. -/
def bumpCount (l : List (Str × Nat)) (r : Str) : List (Str × Nat) :=
  match l with
  | [] => [(r, 1)]
  | (r', n) :: rest => if r' = r then (r', n + 1) :: rest else (r', n) :: bumpCount rest r

/-- The `defaultdict(int)` read (0 for an absent key). -/
def countOf (l : List (Str × Nat)) (r : Str) : Nat :=
  match l with
  | [] => 0
  | (r', n) :: rest => if r' = r then n else countOf rest r

/-- Set insertion for `owners_observed.add(owner)`. -/
def addOwner (l : List Str) (o : Str) : List Str :=
  if o ∈ l then l else l ++ [o]

/-- One resolved hit: one `(target, owner)` pair produced by `extract_targets`
for one raw `rg` match inside one source repository. -/
structure ResolvedHit where
  source : Str
  target : Str
  owner : Option Str
  file : Str
  line_no : Nat
  line : Str

/-- The snippet computation (source lines 407-409): strip the line and
truncate to 220 characters, marking truncation with an ellipsis. -/
def truncateSnippet (s : Str) : Str :=
  if s.length > 220 then s.take 217 ++ ("...").toList else s

/-- The body of the `for target, owner in matches` loop (source lines
411-448): skip self-edges, look up or create the edge, then increment
`occurrences`, bump the relation-type count, record a truthy owner, and
append evidence only below the cap. -/
def foldHit (cap : Nat) (m : EdgeMap) (h : ResolvedHit) : EdgeMap :=
  if h.target = h.source then m
  else
    let relation := classify_relation_type h.file
    let snippet := truncateSnippet (pyStrip h.line)
    let key : EdgeKey := (h.source, h.target)
    let e0 :=
      match mapGet m key with
      | some e => e
      | none =>
        { source := h.source, target := h.target, occurrences := 0,
          rtc := [], owners := [], evidence := [] }
    let e1 : Edge :=
      { e0 with
        occurrences := e0.occurrences + 1,
        rtc := bumpCount e0.rtc relation,
        owners :=
          match h.owner with
          | some o => if o = [] then e0.owners else addOwner e0.owners o
          | none => e0.owners,
        evidence :=
          if e0.evidence.length < cap then
            e0.evidence ++ [⟨h.file, h.line_no, relation, snippet⟩]
          else e0.evidence }
    mapSet m key e1

/-- Folding a stream of resolved hits into the (initially empty) edge map. -/
def buildEdges (cap : Nat) (hits : List ResolvedHit) : EdgeMap :=
  hits.foldl (foldHit cap) []

/-- The `occurrences` counter at a key (0 when the edge does not exist). -/
def occAt (m : EdgeMap) (k : EdgeKey) : Nat :=
  match mapGet m k with
  | some e => e.occurrences
  | none => 0

/-- The relation-type count at a key (0 when the edge does not exist). -/
def rtcAt (m : EdgeMap) (k : EdgeKey) (r : Str) : Nat :=
  match mapGet m k with
  | some e => countOf e.rtc r
  | none => 0

/-- The number of hits of the stream that fold into the edge at key `k`. -/
def countHits (k : EdgeKey) (hits : List ResolvedHit) : Nat :=
  hits.countP (fun h => decide ((h.source, h.target) = k ∧ h.target ≠ h.source))

theorem mapGet_mapSet_same (m : EdgeMap) (k : EdgeKey) (e : Edge) :
    mapGet (mapSet m k e) k = some e := by
  induction m with
  | nil => simp [mapSet, mapGet]
  | cons p rest ih =>
    obtain ⟨k', e'⟩ := p
    by_cases hk : k' = k
    · simp [mapSet, mapGet, hk]
    · simp [mapSet, mapGet, hk, ih]

theorem mapGet_mapSet_other (m : EdgeMap) (k k' : EdgeKey) (e : Edge)
    (hne : k' ≠ k) : mapGet (mapSet m k e) k' = mapGet m k' := by
  have hne' : ¬ k = k' := fun h => hne h.symm
  induction m with
  | nil => simp [mapSet, mapGet, hne']
  | cons p rest ih =>
    obtain ⟨k'', e''⟩ := p
    by_cases hk : k'' = k
    · simp [mapSet, mapGet, hk, hne']
    · simp [mapSet, mapGet, hk, ih]

theorem countOf_bumpCount_same (l : List (Str × Nat)) (r : Str) :
    countOf (bumpCount l r) r = countOf l r + 1 := by
  induction l with
  | nil => simp [bumpCount, countOf]
  | cons p rest ih =>
    obtain ⟨r', n⟩ := p
    by_cases hr : r' = r
    · simp [bumpCount, countOf, hr]
    · simp [bumpCount, countOf, hr, ih]

theorem foldHit_self (cap : Nat) (m : EdgeMap) (h : ResolvedHit)
    (hst : h.target = h.source) : foldHit cap m h = m := by
  simp [foldHit, hst]

theorem mapGet_foldHit_other (cap : Nat) (m : EdgeMap) (h : ResolvedHit) (k : EdgeKey)
    (hk : k ≠ (h.source, h.target)) :
    mapGet (foldHit cap m h) k = mapGet m k := by
  by_cases hst : h.target = h.source
  · rw [foldHit_self cap m h hst]
  · rw [foldHit, if_neg hst]
    exact mapGet_mapSet_other m (h.source, h.target) k _ hk

theorem occAt_foldHit_same (cap : Nat) (m : EdgeMap) (h : ResolvedHit)
    (hne : h.target ≠ h.source) :
    occAt (foldHit cap m h) (h.source, h.target) = occAt m (h.source, h.target) + 1 := by
  cases hm : mapGet m (h.source, h.target) with
  | none => simp [foldHit, hne, hm, occAt, mapGet_mapSet_same]
  | some e => simp [foldHit, hne, hm, occAt, mapGet_mapSet_same]

theorem rtcAt_foldHit_same (cap : Nat) (m : EdgeMap) (h : ResolvedHit)
    (hne : h.target ≠ h.source) :
    rtcAt (foldHit cap m h) (h.source, h.target) (classify_relation_type h.file)
      = rtcAt m (h.source, h.target) (classify_relation_type h.file) + 1 := by
  cases hm : mapGet m (h.source, h.target) with
  | none =>
    simp [foldHit, hne, hm, rtcAt, mapGet_mapSet_same, countOf_bumpCount_same, countOf,
      bumpCount]
  | some e =>
    simp [foldHit, hne, hm, rtcAt, mapGet_mapSet_same, countOf_bumpCount_same]

/-- C7: folding one additional resolved hit with `target ≠ source` increments
exactly that `(source, target)` edge's `occurrences` by one and its count for
the hit's relation type by one, leaves every other edge untouched, and
folding the identical hit twice increments both by exactly two. -/
theorem C7_fold_frame (cap : Nat) (m : EdgeMap) (h : ResolvedHit)
    (hne : h.target ≠ h.source) :
    occAt (foldHit cap m h) (h.source, h.target) = occAt m (h.source, h.target) + 1 ∧
    rtcAt (foldHit cap m h) (h.source, h.target) (classify_relation_type h.file)
      = rtcAt m (h.source, h.target) (classify_relation_type h.file) + 1 ∧
    (∀ k : EdgeKey, k ≠ (h.source, h.target) → mapGet (foldHit cap m h) k = mapGet m k) ∧
    occAt (foldHit cap (foldHit cap m h) h) (h.source, h.target)
      = occAt m (h.source, h.target) + 2 ∧
    rtcAt (foldHit cap (foldHit cap m h) h) (h.source, h.target)
        (classify_relation_type h.file)
      = rtcAt m (h.source, h.target) (classify_relation_type h.file) + 2 := by
  refine ⟨occAt_foldHit_same cap m h hne, rtcAt_foldHit_same cap m h hne,
    fun k hk => mapGet_foldHit_other cap m h k hk, ?_, ?_⟩
  · rw [occAt_foldHit_same cap _ h hne, occAt_foldHit_same cap m h hne]
  · rw [rtcAt_foldHit_same cap _ h hne, rtcAt_foldHit_same cap m h hne]

/-- A sample resolved hit used to instantiate the aggregator theorems. -/
def exHit : ResolvedHit :=
  { source := ("a").toList, target := ("b").toList, owner := none,
    file := ("f").toList, line_no := 1, line := ("x").toList }

/-- The edge that folding `exHit` into the empty map produces. -/
def exEdge : Edge :=
  { source := ("a").toList, target := ("b").toList, occurrences := 1,
    rtc := [(("reference").toList, 1)], owners := [],
    evidence := [⟨("f").toList, 1, ("reference").toList, ("x").toList⟩] }

/-- A self-referencing hit (target equals source). -/
def exSelfHit : ResolvedHit :=
  { source := ("a").toList, target := ("a").toList, owner := none,
    file := ("f").toList, line_no := 1, line := ("x").toList }

theorem C7_fold_frame_witness :
    occAt (foldHit 5 [] exHit) (exHit.source, exHit.target)
        = occAt [] (exHit.source, exHit.target) + 1 ∧
    rtcAt (foldHit 5 [] exHit) (exHit.source, exHit.target)
        (classify_relation_type exHit.file)
      = rtcAt [] (exHit.source, exHit.target) (classify_relation_type exHit.file) + 1 ∧
    (∀ k : EdgeKey, k ≠ (exHit.source, exHit.target) →
      mapGet (foldHit 5 [] exHit) k = mapGet [] k) ∧
    occAt (foldHit 5 (foldHit 5 [] exHit) exHit) (exHit.source, exHit.target)
      = occAt [] (exHit.source, exHit.target) + 2 ∧
    rtcAt (foldHit 5 (foldHit 5 [] exHit) exHit) (exHit.source, exHit.target)
        (classify_relation_type exHit.file)
      = rtcAt [] (exHit.source, exHit.target) (classify_relation_type exHit.file) + 2 :=
  C7_fold_frame 5 [] exHit (by decide)

theorem noSelf_foldHit (cap : Nat) (m : EdgeMap) (h : ResolvedHit)
    (H : ∀ k e, mapGet m k = some e → k.1 ≠ k.2) :
    ∀ k e, mapGet (foldHit cap m h) k = some e → k.1 ≠ k.2 := by
  intro k e hk
  by_cases hst : h.target = h.source
  · rw [foldHit_self cap m h hst] at hk
    exact H k e hk
  · by_cases hkk : k = (h.source, h.target)
    · subst hkk
      exact fun hc => hst (hc.symm)
    · rw [mapGet_foldHit_other cap m h k hkk] at hk
      exact H k e hk

theorem noSelf_foldl (cap : Nat) (hits : List ResolvedHit) :
    ∀ m : EdgeMap, (∀ k e, mapGet m k = some e → k.1 ≠ k.2) →
      ∀ k e, mapGet (hits.foldl (foldHit cap) m) k = some e → k.1 ≠ k.2 := by
  induction hits with
  | nil => intro m H; simpa using H
  | cons h rest ih =>
    intro m H
    exact ih (foldHit cap m h) (noSelf_foldHit cap m h H)

/-- C2: the edge map never contains a self-edge, and a hit whose target
equals the scanning source repository is skipped: it neither creates nor
mutates any edge. -/
theorem C2_no_self_edges :
    (∀ (cap : Nat) (hits : List ResolvedHit) (k : EdgeKey) (e : Edge),
        mapGet (buildEdges cap hits) k = some e → k.1 ≠ k.2) ∧
    (∀ (cap : Nat) (m : EdgeMap) (h : ResolvedHit),
        h.target = h.source → foldHit cap m h = m) := by
  constructor
  · intro cap hits k e hk
    exact noSelf_foldl cap hits [] (by intro k e hk; cases hk) k e hk
  · exact foldHit_self

theorem C2_no_self_edges_witness :
    ((("a").toList, ("b").toList) : EdgeKey).1 ≠ ((("a").toList, ("b").toList) : EdgeKey).2 ∧
    foldHit 5 [] exSelfHit = [] :=
  ⟨C2_no_self_edges.1 5 [exHit] (("a").toList, ("b").toList) exEdge (by decide),
   C2_no_self_edges.2 5 [] exSelfHit (by decide)⟩

theorem occAt_foldHit (cap : Nat) (m : EdgeMap) (h : ResolvedHit) (k : EdgeKey) :
    occAt (foldHit cap m h) k
      = occAt m k + (if (h.source, h.target) = k ∧ h.target ≠ h.source then 1 else 0) := by
  by_cases hst : h.target = h.source
  · simp [foldHit_self cap m h hst, hst]
  · by_cases hkk : (h.source, h.target) = k
    · rw [← hkk]
      simp [occAt_foldHit_same cap m h hst, hst]
    · have hk' : k ≠ (h.source, h.target) := fun hc => hkk hc.symm
      simp [occAt, mapGet_foldHit_other cap m h k hk', hkk]

theorem occAt_foldl (cap : Nat) (hits : List ResolvedHit) :
    ∀ (m : EdgeMap) (k : EdgeKey),
      occAt (hits.foldl (foldHit cap) m) k = occAt m k + countHits k hits := by
  induction hits with
  | nil => intro m k; simp [countHits]
  | cons h rest ih =>
    intro m k
    rw [List.foldl_cons, ih, occAt_foldHit]
    simp only [countHits, List.countP_cons]
    by_cases hp : (h.source, h.target) = k ∧ h.target ≠ h.source
    · simp [hp]
      omega
    · simp [hp]

theorem evcap_foldHit (cap : Nat) (m : EdgeMap) (h : ResolvedHit)
    (H : ∀ k e, mapGet m k = some e → e.evidence.length ≤ cap) :
    ∀ k e, mapGet (foldHit cap m h) k = some e → e.evidence.length ≤ cap := by
  intro k e hk
  by_cases hst : h.target = h.source
  · rw [foldHit_self cap m h hst] at hk
    exact H k e hk
  · by_cases hkk : k = (h.source, h.target)
    · subst hkk
      cases hm : mapGet m (h.source, h.target) with
      | none =>
        rw [foldHit, if_neg hst] at hk
        simp only [hm, mapGet_mapSet_same, Option.some.injEq] at hk
        subst hk
        simp only [List.length_nil]
        split_ifs with hlt
        · simpa using hlt
        · simp
      | some e' =>
        have he' : e'.evidence.length ≤ cap := H _ e' hm
        rw [foldHit, if_neg hst] at hk
        simp only [hm, mapGet_mapSet_same, Option.some.injEq] at hk
        subst hk
        simp only []
        split_ifs with hlt
        · simp only [List.length_append, List.length_cons, List.length_nil]
          omega
        · exact he'
    · rw [mapGet_foldHit_other cap m h k hkk] at hk
      exact H k e hk

theorem evcap_foldl (cap : Nat) (hits : List ResolvedHit) :
    ∀ m : EdgeMap, (∀ k e, mapGet m k = some e → e.evidence.length ≤ cap) →
      ∀ k e, mapGet (hits.foldl (foldHit cap) m) k = some e → e.evidence.length ≤ cap := by
  induction hits with
  | nil => intro m H; simpa using H
  | cons h rest ih =>
    intro m H
    exact ih (foldHit cap m h) (evcap_foldHit cap m h H)

/-- C1: for every hit stream and configured cap, every edge in the aggregate
keeps `evidence.length ≤ cap`, while its `occurrences` field equals the total
number of hits folded into that edge, continuing to count past the cap.
Because the statement holds for every hit list, it holds at every prefix of
the stream, i.e. at all times during aggregation. -/
theorem C1_evidence_cap (cap : Nat) (hits : List ResolvedHit) (k : EdgeKey) (e : Edge)
    (hk : mapGet (buildEdges cap hits) k = some e) :
    e.evidence.length ≤ cap ∧ e.occurrences = countHits k hits := by
  constructor
  · exact evcap_foldl cap hits [] (by intro k e hk; cases hk) k e hk
  · have h1 : occAt (buildEdges cap hits) k = e.occurrences := by
      simp [occAt, hk]
    have h2 := occAt_foldl cap hits [] k
    rw [buildEdges] at h1
    rw [h1] at h2
    simpa [occAt, mapGet] using h2

/-- The edge after folding `exHit` twice (plus a skipped self-hit). -/
def exEdge2 : Edge :=
  { source := ("a").toList, target := ("b").toList, occurrences := 2,
    rtc := [(("reference").toList, 2)], owners := [],
    evidence := [⟨("f").toList, 1, ("reference").toList, ("x").toList⟩,
      ⟨("f").toList, 1, ("reference").toList, ("x").toList⟩] }

theorem C1_evidence_cap_witness :
    exEdge2.evidence.length ≤ 5 ∧
    exEdge2.occurrences = countHits ((("a").toList, ("b").toList)) [exHit, exHit, exSelfHit] :=
  C1_evidence_cap 5 [exHit, exHit, exSelfHit] ((("a").toList, ("b").toList)) exEdge2
    (by decide)

/-- Sum of the values of a `relation_type_counts` mapping. -/
def sumCounts (l : List (Str × Nat)) : Nat := (l.map Prod.snd).sum

theorem sumCounts_bumpCount (l : List (Str × Nat)) (r : Str) :
    sumCounts (bumpCount l r) = sumCounts l + 1 := by
  induction l with
  | nil => simp [bumpCount, sumCounts]
  | cons p rest ih =>
    obtain ⟨r', n⟩ := p
    by_cases hr : r' = r
    · simp [bumpCount, sumCounts, hr]
      omega
    · simp [bumpCount, sumCounts, hr] at ih ⊢
      omega

theorem occsum_foldHit (cap : Nat) (m : EdgeMap) (h : ResolvedHit)
    (H : ∀ k e, mapGet m k = some e → e.occurrences = sumCounts e.rtc ∧ 1 ≤ e.occurrences) :
    ∀ k e, mapGet (foldHit cap m h) k = some e →
      e.occurrences = sumCounts e.rtc ∧ 1 ≤ e.occurrences := by
  intro k e hk
  by_cases hst : h.target = h.source
  · rw [foldHit_self cap m h hst] at hk
    exact H k e hk
  · by_cases hkk : k = (h.source, h.target)
    · subst hkk
      cases hm : mapGet m (h.source, h.target) with
      | none =>
        rw [foldHit, if_neg hst] at hk
        simp only [hm, mapGet_mapSet_same, Option.some.injEq] at hk
        subst hk
        simp [bumpCount, sumCounts]
      | some e' =>
        have he' := H _ e' hm
        rw [foldHit, if_neg hst] at hk
        simp only [hm, mapGet_mapSet_same, Option.some.injEq] at hk
        subst hk
        simp only [sumCounts_bumpCount]
        omega
    · rw [mapGet_foldHit_other cap m h k hkk] at hk
      exact H k e hk

theorem occsum_foldl (cap : Nat) (hits : List ResolvedHit) :
    ∀ m : EdgeMap,
      (∀ k e, mapGet m k = some e → e.occurrences = sumCounts e.rtc ∧ 1 ≤ e.occurrences) →
      ∀ k e, mapGet (hits.foldl (foldHit cap) m) k = some e →
        e.occurrences = sumCounts e.rtc ∧ 1 ≤ e.occurrences := by
  induction hits with
  | nil => intro m H; simpa using H
  | cons h rest ih =>
    intro m H
    exact ih (foldHit cap m h) (occsum_foldHit cap m h H)

/-- C10: at every point during aggregation every edge satisfies
`occurrences = sum of relation_type_counts values`, and both are at least 1;
an edge only exists once a hit has been folded into it.  (The report stage
only sorts `relation_type_counts`, which permutes the summands, so the same
equation holds in the final report.) -/
theorem C10_occ_eq_sum (cap : Nat) (hits : List ResolvedHit) (k : EdgeKey) (e : Edge)
    (hk : mapGet (buildEdges cap hits) k = some e) :
    e.occurrences = sumCounts e.rtc ∧ 1 ≤ e.occurrences ∧ 1 ≤ sumCounts e.rtc := by
  have h := occsum_foldl cap hits [] (by intro k e hk; cases hk) k e hk
  exact ⟨h.1, h.2, by omega⟩

theorem C10_occ_eq_sum_witness :
    exEdge.occurrences = sumCounts exEdge.rtc ∧ 1 ≤ exEdge.occurrences ∧
      1 ≤ sumCounts exEdge.rtc :=
  C10_occ_eq_sum 5 [exHit] ((("a").toList, ("b").toList)) exEdge (by decide)

/-! Match resolver (`extract_targets`, source lines 304-331).  A compiled
extractor is modelled by its `finditer` behaviour on a line (a function from
the line to the list of matches, each match carrying its named-group values)
together with the optional `alias_to_repo` lookup table. -/

/-- The named-group values of one regex match (`match.groupdict()`); a group
that is absent from the pattern or did not participate is `none`. -/
structure RMatch where
  owner : Option Str
  repo : Option Str
  aliasGroup : Option Str

/-- One compiled extractor paired with its optional alias lookup table. -/
structure Extractor where
  find : Str → List RMatch
  table : Option (List (Str × Str))

/-- Lookup in an `alias_to_repo`-style dict. -/
def tblGet (t : List (Str × Str)) (k : Str) : Option Str :=
  match t with
  | [] => none
  | (k', v) :: rest => if k' = k then some v else tblGet rest k

/-- ASCII lowercasing of one character (`str.lower()` on the ASCII range). -/
def asciiLower (c : Char) : Char :=
  if 'A' ≤ c ∧ c ≤ 'Z' then Char.ofNat (c.toNat + 32) else c

/-- Python `s.lower()`. -/
def strLower (s : Str) : Str := s.map asciiLower

/-- The `repo`/`owner` resolution of one match (source lines 312-320): a URL
or org extractor reads the `repo` and `owner` groups directly; an alias
extractor lowercases the `alias` group and looks it up in the table (with
owner `None`), yielding no repo when the alias is falsy or not in the
table. -/
def resolveMatch (table : Option (List (Str × Str))) (m : RMatch) : Option Str × Option Str :=
  match table with
  | none => (m.repo, m.owner)
  | some t =>
    (match m.aliasGroup with
     | some a => if a = [] then none else tblGet t (strLower a)
     | none => none,
     none)

/-- Lookup in the `owners_by_repo` dict (`get`, i.e. distinguishing an
absent key from a stored `None`). -/
def obrGet (d : List (Str × Option Str)) (k : Str) : Option (Option Str) :=
  match d with
  | [] => none
  | (k', v) :: rest => if k' = k then some v else obrGet rest k

/-- Store into the `owners_by_repo` dict, keeping the position of an
existing key (Python insertion order). -/
def obrSet (d : List (Str × Option Str)) (k : Str) (v : Option Str) : List (Str × Option Str) :=
  match d with
  | [] => [(k, v)]
  | (k', v') :: rest => if k' = k then (k, v) :: rest else (k', v') :: obrSet rest k v

/-- The owner-preference merge (source lines 325-330): write a first-seen
owner even if `None`, replace a stored `None` by a later concrete owner,
never replace a stored concrete owner. -/
def mergeDict (d : List (Str × Option Str)) (r : Str) (o : Option Str) :
    List (Str × Option Str) :=
  match obrGet d r with
  | some (some _) => d
  | some none =>
    match o with
    | some oo => obrSet d r (some oo)
    | none => d
  | none => obrSet d r o

/-- The body of the `for match in extractor.finditer(line)` loop (source
lines 311-330): resolve the match, skip a falsy repo, check the known-name
set, and merge into `owners_by_repo`. -/
def procMatch (known : List Str) (tbl : Option (List (Str × Str)))
    (d : List (Str × Option Str)) (m : RMatch) : List (Str × Option Str) :=
  match resolveMatch tbl m with
  | (none, _) => d
  | (some r, o) =>
    if r = [] then d
    else if r ∈ known then mergeDict d r o else d

/-- Strict lexicographic comparison of Python strings (codepoint order). -/
def strLtB : Str → Str → Bool
  | [], [] => false
  | [], _ :: _ => true
  | _ :: _, [] => false
  | a :: as, b :: bs => Nat.blt a.toNat b.toNat || (a == b && strLtB as bs)

/-- Stable insertion for `sorted(..., key=lambda item: item[0])`. -/
def insPair (p : Str × Option Str) : List (Str × Option Str) → List (Str × Option Str)
  | [] => [p]
  | q :: qs => if strLtB p.1 q.1 then p :: q :: qs else q :: insPair p qs

/-- Sorting the dict items by repo name, as the final `sorted(...)` does. -/
def sortPairs (l : List (Str × Option Str)) : List (Str × Option Str) :=
  l.foldr insPair []

/-- Embedding of `extract_targets` (source lines 304-331): fold every match
of every extractor into `owners_by_repo`, then return the items sorted by
repo name. -/
def extract_targets (line : Str) (extractors : List Extractor) (known : List Str) :
    List (Str × Option Str) :=
  sortPairs
    (extractors.foldl
      (fun d ext => (ext.find line).foldl (procMatch known ext.table) d) [])

theorem charEq_of_toNat_eq {a b : Char} (h : a.toNat = b.toNat) : a = b :=
  Char.ext (UInt32.ext h)

theorem strLtB_irrefl (a : Str) : strLtB a a = false := by
  induction a with
  | nil => rfl
  | cons c cs ih =>
    have hb : Nat.blt c.toNat c.toNat = false := by
      rw [← Bool.not_eq_true, Nat.blt_eq]
      omega
    simp [strLtB, ih, hb]

theorem strLtB_trans : ∀ a b c : Str, strLtB a b = true → strLtB b c = true →
    strLtB a c = true := by
  intro a
  induction a with
  | nil =>
    intro b c hab hbc
    cases b with
    | nil => cases hab
    | cons bb bs =>
      cases c with
      | nil => cases hbc
      | cons cc cs => rfl
  | cons aa as ih =>
    intro b c hab hbc
    cases b with
    | nil => cases hab
    | cons bb bs =>
      cases c with
      | nil => cases hbc
      | cons cc cs =>
        simp only [strLtB, Nat.blt_eq, Bool.or_eq_true, decide_eq_true_eq,
          Bool.and_eq_true, beq_iff_eq] at hab hbc ⊢
        rcases hab with h1 | ⟨h1, h2⟩ <;> rcases hbc with g1 | ⟨g1, g2⟩
        · exact Or.inl (Nat.lt_trans h1 g1)
        · exact Or.inl (g1 ▸ h1)
        · exact Or.inl (h1 ▸ g1)
        · exact Or.inr ⟨h1.trans g1, ih bs cs h2 g2⟩

theorem strLtB_connex : ∀ a b : Str, a ≠ b →
    strLtB a b = true ∨ strLtB b a = true := by
  intro a
  induction a with
  | nil =>
    intro b hne
    cases b with
    | nil => exact absurd rfl hne
    | cons bb bs => exact Or.inl rfl
  | cons aa as ih =>
    intro b hne
    cases b with
    | nil => exact Or.inr rfl
    | cons bb bs =>
      rcases Nat.lt_trichotomy aa.toNat bb.toNat with hlt | heq | hgt
      · exact Or.inl (by simp [strLtB, hlt])
      · have hc : aa = bb := charEq_of_toNat_eq heq
        subst hc
        have hbs : as ≠ bs := fun h => hne (by rw [h])
        rcases ih bs hbs with h | h
        · exact Or.inl (by simp [strLtB, h])
        · exact Or.inr (by simp [strLtB, h])
      · exact Or.inr (by simp [strLtB, hgt])

theorem strLtB_asymm (a b : Str) (h : strLtB a b = true) : strLtB b a = false := by
  by_contra hc
  have hba : strLtB b a = true := by
    cases hv : strLtB b a
    · exact absurd hv hc
    · rfl
  have := strLtB_trans a b a h hba
  rw [strLtB_irrefl] at this
  cases this

theorem insPair_perm (p : Str × Option Str) (l : List (Str × Option Str)) :
    List.Perm (insPair p l) (p :: l) := by
  induction l with
  | nil => simp [insPair]
  | cons x xs ih =>
    rw [insPair]
    split
    · exact List.Perm.refl _
    · exact ((ih.cons x).trans (List.Perm.swap p x xs))

theorem mem_insPair (p q : Str × Option Str) (l : List (Str × Option Str)) :
    q ∈ insPair p l → q = p ∨ q ∈ l := by
  intro h
  have h' := (insPair_perm p l).mem_iff.mp h
  rw [List.mem_cons] at h'
  exact h'

theorem sortPairs_perm (l : List (Str × Option Str)) :
    List.Perm (sortPairs l) l := by
  induction l with
  | nil => simp [sortPairs]
  | cons x xs ih =>
    have h1 := insPair_perm x (sortPairs xs)
    exact (h1.trans (ih.cons x))

theorem insPair_pairwise (p : Str × Option Str) (l : List (Str × Option Str))
    (hl : l.Pairwise (fun a b => strLtB b.1 a.1 = false)) :
    (insPair p l).Pairwise (fun a b => strLtB b.1 a.1 = false) := by
  induction l with
  | nil => simp [insPair]
  | cons x xs ih =>
    rw [insPair]
    rw [List.pairwise_cons] at hl
    split
    · rename_i hpx
      refine List.pairwise_cons.2 ⟨?_, List.pairwise_cons.2 hl⟩
      intro q hq
      rw [List.mem_cons] at hq
      rcases hq with hq | hq
      · rw [hq]
        exact strLtB_asymm _ _ hpx
      · have hxq := hl.1 q hq
        by_contra hc
        have hqp : strLtB q.1 p.1 = true := by
          cases hv : strLtB q.1 p.1
          · exact absurd hv hc
          · rfl
        have hqx : strLtB q.1 x.1 = true := strLtB_trans _ _ _ hqp hpx
        rw [hxq] at hqx
        cases hqx
    · rename_i hpx
      refine List.pairwise_cons.2 ⟨?_, ih hl.2⟩
      intro q hq
      rcases mem_insPair p q xs hq with hq' | hq'
      · rw [hq']
        simpa using hpx
      · exact hl.1 q hq'

theorem sortPairs_pairwise (l : List (Str × Option Str)) :
    (sortPairs l).Pairwise (fun a b => strLtB b.1 a.1 = false) := by
  induction l with
  | nil => simp [sortPairs]
  | cons x xs ih => exact insPair_pairwise x (sortPairs xs) ih

/-- The pair a single match contributes after resolution and the known-name
check (`None` when the match is discarded). -/
def resolveKept (known : List Str) (tbl : Option (List (Str × Str))) (m : RMatch) :
    Option (Str × Option Str) :=
  match resolveMatch tbl m with
  | (none, _) => none
  | (some r, o) =>
    if r = [] then none else if r ∈ known then some (r, o) else none

/-- The flattened stream of (repo, owner) pairs that survive resolution and
the known-name check, in processing order (extractor order, then match
order). -/
def resolvedPairs (line : Str) (extractors : List Extractor) (known : List Str) :
    List (Str × Option Str) :=
  (extractors.map (fun ext => (ext.find line).filterMap (resolveKept known ext.table))).flatten

/-- Folding a pair stream into `owners_by_repo`. -/
def foldPairs (d : List (Str × Option Str)) (ps : List (Str × Option Str)) :
    List (Str × Option Str) :=
  ps.foldl (fun d p => mergeDict d p.1 p.2) d

theorem foldPairs_append (d : List (Str × Option Str))
    (xs ys : List (Str × Option Str)) :
    foldPairs d (xs ++ ys) = foldPairs (foldPairs d xs) ys := by
  simp [foldPairs, List.foldl_append]

theorem procMatch_eq (known : List Str) (tbl : Option (List (Str × Str)))
    (d : List (Str × Option Str)) (m : RMatch) :
    procMatch known tbl d m =
      match resolveKept known tbl m with
      | none => d
      | some p => mergeDict d p.1 p.2 := by
  rcases hrm : resolveMatch tbl m with ⟨ro, o⟩
  rw [procMatch, resolveKept, hrm]
  cases ro with
  | none => rfl
  | some r =>
    dsimp only
    split_ifs <;> rfl

theorem foldl_procMatch_eq (known : List Str) (tbl : Option (List (Str × Str)))
    (ms : List RMatch) : ∀ d,
    ms.foldl (procMatch known tbl) d = foldPairs d (ms.filterMap (resolveKept known tbl)) := by
  induction ms with
  | nil => intro d; rfl
  | cons m ms ih =>
    intro d
    rw [List.foldl_cons, List.filterMap_cons, procMatch_eq]
    cases hk : resolveKept known tbl m with
    | none => simp only [ih]
    | some p => simp only [ih, foldPairs, List.foldl_cons]

theorem foldl_extractors_eq (line : Str) (known : List Str) :
    ∀ (extractors : List Extractor) (d : List (Str × Option Str)),
      extractors.foldl
          (fun d ext => (ext.find line).foldl (procMatch known ext.table) d) d
        = foldPairs d (resolvedPairs line extractors known) := by
  intro extractors
  induction extractors with
  | nil => intro d; simp [resolvedPairs, foldPairs]
  | cons ext exts ih =>
    intro d
    rw [List.foldl_cons, foldl_procMatch_eq, ih]
    have happ : resolvedPairs line (ext :: exts) known
        = (ext.find line).filterMap (resolveKept known ext.table)
            ++ resolvedPairs line exts known := by
      simp [resolvedPairs]
    rw [happ, foldPairs_append]

theorem extract_targets_eq (line : Str) (extractors : List Extractor) (known : List Str) :
    extract_targets line extractors known
      = sortPairs (foldPairs [] (resolvedPairs line extractors known)) := by
  rw [extract_targets, foldl_extractors_eq]

theorem obrGet_obrSet_same (d : List (Str × Option Str)) (k : Str) (v : Option Str) :
    obrGet (obrSet d k v) k = some v := by
  induction d with
  | nil => simp [obrSet, obrGet]
  | cons p rest ih =>
    obtain ⟨k', v'⟩ := p
    by_cases hk : k' = k
    · simp [obrSet, obrGet, hk]
    · simp [obrSet, obrGet, hk, ih]

theorem obrGet_obrSet_other (d : List (Str × Option Str)) (k k' : Str) (v : Option Str)
    (hne : k' ≠ k) : obrGet (obrSet d k v) k' = obrGet d k' := by
  have hne' : ¬ k = k' := fun h => hne h.symm
  induction d with
  | nil => simp [obrSet, obrGet, hne']
  | cons p rest ih =>
    obtain ⟨k'', v''⟩ := p
    by_cases hk : k'' = k
    · simp [obrSet, obrGet, hk, hne']
    · simp [obrSet, obrGet, hk, ih]

/-- The owner values contributed for repo `r`, in processing order. -/
def ownersFor (r : Str) (ps : List (Str × Option Str)) : List (Option Str) :=
  (ps.filter (fun p => p.1 == r)).map Prod.snd

theorem obrGet_mergeDict_other (d : List (Str × Option Str)) (q r : Str)
    (o : Option Str) (hne : q ≠ r) : obrGet (mergeDict d q o) r = obrGet d r := by
  rw [mergeDict.eq_def]
  cases obrGet d q with
  | none => exact obrGet_obrSet_other d q r o (fun h => hne h.symm)
  | some v =>
    cases v with
    | none =>
      cases o with
      | none => rfl
      | some oo => exact obrGet_obrSet_other d q r (some oo) (fun h => hne h.symm)
    | some x => rfl

theorem obrGet_foldPairs (ps : List (Str × Option Str)) :
    ∀ (d : List (Str × Option Str)) (r : Str),
      obrGet (foldPairs d ps) r =
        match obrGet d r with
        | some (some x) => some (some x)
        | some none => some (((ownersFor r ps).filterMap id).head?)
        | none =>
          if ownersFor r ps = [] then none
          else some (((ownersFor r ps).filterMap id).head? ) := by
  induction ps with
  | nil =>
    intro d r
    cases hd : obrGet d r with
    | none => simp [foldPairs, ownersFor, hd]
    | some v => cases v <;> simp [foldPairs, ownersFor, hd]
  | cons p ps ih =>
    intro d r
    obtain ⟨q, qo⟩ := p
    have hstep : foldPairs d ((q, qo) :: ps) = foldPairs (mergeDict d q qo) ps := rfl
    rw [hstep, ih]
    by_cases hqr : q = r
    · subst hqr
      have howners : ownersFor q ((q, qo) :: ps) = qo :: ownersFor q ps := by
        simp [ownersFor]
      rw [howners]
      cases hd : obrGet d q with
      | none =>
        rw [mergeDict.eq_def, hd]
        rw [obrGet_obrSet_same]
        cases qo with
        | none => simp
        | some oo => simp
      | some v =>
        cases v with
        | none =>
          rw [mergeDict.eq_def, hd]
          cases qo with
          | none => simp [hd]
          | some oo =>
            rw [obrGet_obrSet_same]
            simp
        | some x =>
          rw [mergeDict.eq_def, hd]
          simp [hd]
    · have howners : ownersFor r ((q, qo) :: ps) = ownersFor r ps := by
        simp [ownersFor, hqr]
      rw [howners, obrGet_mergeDict_other d q r qo hqr]

theorem obrGet_mem (d : List (Str × Option Str)) (r : Str) (v : Option Str)
    (h : obrGet d r = some v) : (r, v) ∈ d := by
  induction d with
  | nil => cases h
  | cons p rest ih =>
    obtain ⟨k, w⟩ := p
    rw [obrGet] at h
    by_cases hk : k = r
    · rw [if_pos hk] at h
      injection h with hwv
      rw [List.mem_cons]
      left
      rw [hk, hwv]
    · rw [if_neg hk] at h
      exact List.mem_cons.2 (Or.inr (ih h))

/-- Two URL-style extractors whose matches on any line resolve the repo
`widgets` first with no owner, then with owner `example-org`. -/
def widgetsExts : List Extractor :=
  [⟨fun _ => [⟨none, some (("widgets").toList), none⟩], none⟩,
   ⟨fun _ => [⟨some (("example-org").toList), some (("widgets").toList), none⟩], none⟩]

/-- C3: for every line and extractor set, the owner recorded for a target is
the first non-null owner supplied by any match in processing order (null when
no match supplied one): a null owner is written on first sight, a stored null
is replaced by a later non-null owner, and a stored non-null owner is never
replaced.  In particular matches yielding `(widgets, None)` and
`(widgets, example-org)` on one line resolve to owner `example-org`. -/
theorem C3_owner_preference :
    (∀ (line : Str) (extractors : List Extractor) (known : List Str) (r : Str),
        ownersFor r (resolvedPairs line extractors known) ≠ [] →
        (r, ((ownersFor r (resolvedPairs line extractors known)).filterMap id).head?)
          ∈ extract_targets line extractors known) ∧
    extract_targets [] widgetsExts [("widgets").toList]
      = [(("widgets").toList, some (("example-org").toList))] := by
  constructor
  · intro line extractors known r hne
    rw [extract_targets_eq]
    rw [(sortPairs_perm (foldPairs [] (resolvedPairs line extractors known))).mem_iff]
    apply obrGet_mem
    rw [obrGet_foldPairs]
    simp only [obrGet]
    rw [if_neg hne]
  · decide

theorem C3_owner_preference_witness :
    ((("widgets").toList,
        ((ownersFor (("widgets").toList)
            (resolvedPairs [] widgetsExts [("widgets").toList])).filterMap id).head?)
      : Str × Option Str)
      ∈ extract_targets [] widgetsExts [("widgets").toList] :=
  C3_owner_preference.1 [] widgetsExts [("widgets").toList] (("widgets").toList)
    (by decide)

theorem resolveKept_known (known : List Str) (tbl : Option (List (Str × Str)))
    (m : RMatch) (p : Str × Option Str) (h : resolveKept known tbl m = some p) :
    p.1 ∈ known := by
  rw [resolveKept] at h
  rcases hrm : resolveMatch tbl m with ⟨ro, o⟩
  rw [hrm] at h
  cases ro with
  | none => cases h
  | some r =>
    dsimp only at h
    split_ifs at h with h1 h2
    all_goals cases h
    exact h2

theorem resolvedPairs_keys (line : Str) (extractors : List Extractor) (known : List Str) :
    ∀ p ∈ resolvedPairs line extractors known, p.1 ∈ known := by
  intro p hp
  simp only [resolvedPairs, List.mem_flatten, List.mem_map] at hp
  obtain ⟨l, ⟨ext, hext, rfl⟩, hpl⟩ := hp
  rw [List.mem_filterMap] at hpl
  obtain ⟨m, hm, hsome⟩ := hpl
  exact resolveKept_known known ext.table m p hsome

theorem obrSet_mem (d : List (Str × Option Str)) (k : Str) (v : Option Str)
    (q : Str × Option Str) : q ∈ obrSet d k v → q = (k, v) ∨ q ∈ d := by
  induction d with
  | nil => intro h; simpa [obrSet] using h
  | cons p rest ih =>
    obtain ⟨k', v'⟩ := p
    intro h
    by_cases hk : k' = k
    · simp only [obrSet, if_pos hk, List.mem_cons] at h
      rcases h with h | h
      · exact Or.inl h
      · exact Or.inr (List.mem_cons.2 (Or.inr h))
    · simp only [obrSet, if_neg hk, List.mem_cons] at h
      rcases h with h | h
      · exact Or.inr (List.mem_cons.2 (Or.inl h))
      · rcases ih h with h' | h'
        · exact Or.inl h'
        · exact Or.inr (List.mem_cons.2 (Or.inr h'))

theorem mergeDict_mem (d : List (Str × Option Str)) (r : Str) (o : Option Str)
    (q : Str × Option Str) : q ∈ mergeDict d r o → q.1 = r ∨ q ∈ d := by
  intro h
  rw [mergeDict.eq_def] at h
  rcases hd : obrGet d r with _ | ⟨_ | x⟩ <;> rw [hd] at h
  · rcases obrSet_mem d r o q h with h' | h'
    · exact Or.inl (by rw [h'])
    · exact Or.inr h'
  · cases o with
    | none => exact Or.inr h
    | some oo =>
      rcases obrSet_mem d r (some oo) q h with h' | h'
      · exact Or.inl (by rw [h'])
      · exact Or.inr h'
  · exact Or.inr h

theorem foldPairs_keys_known (known : List Str) :
    ∀ (ps : List (Str × Option Str)) (d : List (Str × Option Str)),
      (∀ p ∈ ps, p.1 ∈ known) → (∀ q ∈ d, q.1 ∈ known) →
      ∀ q ∈ foldPairs d ps, q.1 ∈ known := by
  intro ps
  induction ps with
  | nil => intro d _ hd q hq; exact hd q hq
  | cons p ps ih =>
    intro d hps hd q hq
    have hp : p.1 ∈ known := hps p (List.mem_cons.2 (Or.inl rfl))
    have hps' : ∀ p' ∈ ps, p'.1 ∈ known := fun p' h => hps p' (List.mem_cons.2 (Or.inr h))
    refine ih (mergeDict d p.1 p.2) hps' ?_ q hq
    intro q' hq'
    rcases mergeDict_mem d p.1 p.2 q' hq' with h | h
    · rw [h]; exact hp
    · exact hd q' h

theorem obrSet_keys_sub (d : List (Str × Option Str)) (k : Str) (v : Option Str)
    (x : Str) : x ∈ (obrSet d k v).map Prod.fst → x = k ∨ x ∈ d.map Prod.fst := by
  intro hx
  rw [List.mem_map] at hx
  obtain ⟨q, hq, rfl⟩ := hx
  rcases obrSet_mem d k v q hq with h | h
  · exact Or.inl (by rw [h])
  · exact Or.inr (List.mem_map.2 ⟨q, h, rfl⟩)

theorem obrSet_keys_nodup (k : Str) (v : Option Str) :
    ∀ d : List (Str × Option Str),
      (d.map Prod.fst).Nodup → ((obrSet d k v).map Prod.fst).Nodup := by
  intro d
  induction d with
  | nil => intro _; simp [obrSet]
  | cons p rest ih =>
    obtain ⟨k', v'⟩ := p
    intro hd
    rw [List.map_cons, List.nodup_cons] at hd
    by_cases hk : k' = k
    · simp only [obrSet, if_pos hk, List.map_cons, List.nodup_cons]
      exact ⟨by rw [← hk]; exact hd.1, hd.2⟩
    · simp only [obrSet, if_neg hk, List.map_cons, List.nodup_cons]
      refine ⟨?_, ih hd.2⟩
      intro hx
      rcases obrSet_keys_sub rest k v k' hx with h | h
      · exact hk h
      · exact hd.1 h

theorem mergeDict_keys_nodup (d : List (Str × Option Str)) (r : Str) (o : Option Str)
    (hd : (d.map Prod.fst).Nodup) : ((mergeDict d r o).map Prod.fst).Nodup := by
  rw [mergeDict.eq_def]
  rcases hg : obrGet d r with _ | ⟨_ | x⟩
  · exact obrSet_keys_nodup r o d hd
  · cases o with
    | none => exact hd
    | some oo => exact obrSet_keys_nodup r (some oo) d hd
  · exact hd

theorem foldPairs_keys_nodup :
    ∀ (ps : List (Str × Option Str)) (d : List (Str × Option Str)),
      (d.map Prod.fst).Nodup → ((foldPairs d ps).map Prod.fst).Nodup := by
  intro ps
  induction ps with
  | nil => intro d hd; exact hd
  | cons p ps ih =>
    intro d hd
    exact ih (mergeDict d p.1 p.2) (mergeDict_keys_nodup d p.1 p.2 hd)

/-- C5: every pair returned by `extract_targets` has a repo name in the
known-name set, the returned repo names are pairwise distinct, and the
returned sequence is strictly sorted ascending by repo name. -/
theorem C5_resolver_output (line : Str) (extractors : List Extractor) (known : List Str) :
    (∀ p ∈ extract_targets line extractors known, p.1 ∈ known) ∧
    ((extract_targets line extractors known).map Prod.fst).Nodup ∧
    (extract_targets line extractors known).Pairwise (fun p q => strLtB p.1 q.1 = true) := by
  have hks := foldPairs_keys_known known (resolvedPairs line extractors known) []
    (resolvedPairs_keys line extractors known) (by intro q hq; cases hq)
  have hnd : ((foldPairs [] (resolvedPairs line extractors known)).map Prod.fst).Nodup :=
    foldPairs_keys_nodup (resolvedPairs line extractors known) [] (by simp)
  have hperm := sortPairs_perm (foldPairs [] (resolvedPairs line extractors known))
  have hndsorted : ((sortPairs (foldPairs []
      (resolvedPairs line extractors known))).map Prod.fst).Nodup :=
    ((hperm.map Prod.fst).nodup_iff).mpr hnd
  refine ⟨?_, ?_, ?_⟩
  · intro p hp
    rw [extract_targets_eq] at hp
    exact hks p (hperm.mem_iff.mp hp)
  · rw [extract_targets_eq]
    exact hndsorted
  · rw [extract_targets_eq]
    have hsorted := sortPairs_pairwise (foldPairs [] (resolvedPairs line extractors known))
    have hnd' : (sortPairs (foldPairs []
        (resolvedPairs line extractors known))).Pairwise (fun p q => p.1 ≠ q.1) :=
      List.pairwise_map.mp hndsorted
    refine (hsorted.and hnd').imp ?_
    intro a b hab
    rcases strLtB_connex a.1 b.1 hab.2 with h | h
    · exact h
    · rw [hab.1] at h
      cases h

theorem C5_resolver_output_witness :
    (("widgets").toList ∈ [("widgets").toList]) ∧
    ((extract_targets [] widgetsExts [("widgets").toList]).map Prod.fst).Nodup ∧
    (extract_targets [] widgetsExts [("widgets").toList]).Pairwise
      (fun p q => strLtB p.1 q.1 = true) :=
  ⟨(C5_resolver_output [] widgetsExts [("widgets").toList]).1
      ((("widgets").toList, some (("example-org").toList))) (by decide),
   (C5_resolver_output [] widgetsExts [("widgets").toList]).2.1,
   (C5_resolver_output [] widgetsExts [("widgets").toList]).2.2⟩

/-! Alias collector (`collect_go_module_aliases`, source lines 147-196).  A
repository is modelled by its name and the contents of the `go.mod` files
found under its tree (in `rglob` order); files whose read raised `OSError`
are simply absent, matching the skip-silently policy. -/

/-- A repository directory together with its readable `go.mod` contents. -/
structure RepoFS where
  name : Str
  goModContents : List Str

/-- Python `str.splitlines()` for the line boundaries `\n`, `\r\n`, `\r`. -/
def splitLinesAux : Str → Str → List Str
  | [], acc => if acc = [] then [] else [acc.reverse]
  | '\r' :: '\n' :: rest, acc => acc.reverse :: splitLinesAux rest []
  | '\n' :: rest, acc => acc.reverse :: splitLinesAux rest []
  | '\r' :: rest, acc => acc.reverse :: splitLinesAux rest []
  | c :: rest, acc => splitLinesAux rest (c :: acc)

/-- Python `content.splitlines()`. -/
def splitLines (s : Str) : List Str := splitLinesAux s []

/-- The match of `^\s*module\s+([^\s]+)\s*$` on one line, returning the
captured module-path token: optional leading whitespace, the literal
`module`, at least one whitespace, a non-empty run of non-whitespace (the
group), then only whitespace to the end. -/
def moduleLineMatch (line : Str) : Option Str :=
  let rest := line.dropWhile pyIsSpace
  if strHasPre ("module").toList rest then
    let after := rest.drop 6
    match after with
    | [] => none
    | c :: _ =>
      if pyIsSpace c then
        let tok := (after.dropWhile pyIsSpace).takeWhile (fun c => !(pyIsSpace c))
        let tail := (after.dropWhile pyIsSpace).dropWhile (fun c => !(pyIsSpace c))
        if tok = [] then none
        else if tail.all pyIsSpace then some (pyStrip tok) else none
      else none
  else none

/-- The first `module` declaration of a `go.mod` content (the loop with
`break` at source lines 169-173). -/
def firstModulePath (content : Str) : Option Str :=
  (splitLines content).findSome? moduleLineMatch

/-- `[part for part in module_path.split("/") if part]`. -/
def pathParts (p : Str) : List Str :=
  (List.splitOn '/' p).filter (fun s => !s.isEmpty)

/-- The pattern `^v\d+$`: a bare `v` followed by one or more digits. -/
def isSemverSuffix (s : Str) : Bool :=
  match s with
  | 'v' :: ds => !ds.isEmpty && ds.all (fun c => c.isDigit)
  | _ => false

/-- The repository name a module path is recorded for (source lines 178-191):
the last non-empty segment when it is a known repo name, otherwise the
second-to-last segment when the last matches `^v\d+$` and the
second-to-last is a known repo name; `none` otherwise. -/
def aliasRepoFor (module_path : Str) (known : List Str) : Option Str :=
  match (pathParts module_path).getLast? with
  | none => none
  | some last =>
    if last ∈ known then some last
    else
      match (pathParts module_path).dropLast.getLast? with
      | some prev =>
        if isSemverSuffix last ∧ prev ∈ known then some prev else none
      | none => none

/-- All `(repo_name, module_path)` alias records produced by the collector,
in scan order. -/
def aliasPairs (repos : List RepoFS) (known : List Str) : List (Str × Str) :=
  (repos.map (fun repo =>
    repo.goModContents.filterMap (fun content =>
      match firstModulePath content with
      | none => none
      | some mp =>
        match aliasRepoFor mp known with
        | some rn => some (rn, mp)
        | none => none))).flatten

/-- Embedding of `collect_go_module_aliases`: the map from a repo name to the
module paths recorded as its aliases (the Python value is a `set`; the model
keeps scan order, which only affects presentation, never membership). -/
def collect_go_module_aliases (repos : List RepoFS) (known : List Str) : Str → List Str :=
  fun r => ((aliasPairs repos known).filter (fun p => p.1 == r)).map Prod.snd

theorem aliasRepoFor_spec (mp : Str) (known : List Str) (r : Str)
    (h : aliasRepoFor mp known = some r) :
    (∃ last, (pathParts mp).getLast? = some last ∧ last = r ∧ r ∈ known) ∨
    (2 ≤ (pathParts mp).length ∧
      ∃ last prev, (pathParts mp).getLast? = some last ∧ isSemverSuffix last = true ∧
        (pathParts mp).dropLast.getLast? = some prev ∧ prev = r ∧ r ∈ known) := by
  rw [aliasRepoFor.eq_def] at h
  cases hl : (pathParts mp).getLast? with
  | none =>
    simp only [hl] at h
    cases h
  | some last =>
    simp only [hl] at h
    by_cases hk : last ∈ known
    · rw [if_pos hk] at h
      injection h with hr
      exact Or.inl ⟨last, rfl, hr, hr ▸ hk⟩
    · rw [if_neg hk] at h
      cases hp : (pathParts mp).dropLast.getLast? with
      | none =>
        simp only [hp] at h
        cases h
      | some prev =>
        simp only [hp] at h
        split_ifs at h with hc
        injection h with hr
        have hne : (pathParts mp).dropLast ≠ [] := by
          intro hc'
          rw [hc'] at hp
          cases hp
        have hlen : 0 < (pathParts mp).dropLast.length :=
          List.length_pos.mpr hne
        rw [List.length_dropLast] at hlen
        exact Or.inr ⟨by omega, last, prev, rfl, hc.1, rfl, hr, hr ▸ hc.2⟩

/-- C6: a module path is recorded as an alias of repo `r` only when its last
non-empty segment equals `r` and `r` is a known repo name, or its last
segment matches `^v\d+$` and its second-to-last segment equals `r` with `r`
known; a path satisfying neither condition contributes no alias. -/
theorem C6_alias_invariant (repos : List RepoFS) (known : List Str) (r mp : Str)
    (h : mp ∈ collect_go_module_aliases repos known r) :
    (∃ last, (pathParts mp).getLast? = some last ∧ last = r ∧ r ∈ known) ∨
    (2 ≤ (pathParts mp).length ∧
      ∃ last prev, (pathParts mp).getLast? = some last ∧ isSemverSuffix last = true ∧
        (pathParts mp).dropLast.getLast? = some prev ∧ prev = r ∧ r ∈ known) := by
  simp only [collect_go_module_aliases, List.mem_map, List.mem_filter] at h
  obtain ⟨⟨rn, mp'⟩, ⟨hmem, hrn⟩, hmp⟩ := h
  simp only [beq_iff_eq] at hrn
  dsimp only at hmp hrn
  subst hmp
  subst hrn
  simp only [aliasPairs, List.mem_flatten, List.mem_map] at hmem
  obtain ⟨l, ⟨repo, hrepo, rfl⟩, hml⟩ := hmem
  rw [List.mem_filterMap] at hml
  obtain ⟨content, hcontent, hsome⟩ := hml
  cases hfm : firstModulePath content with
  | none => rw [hfm] at hsome; cases hsome
  | some mp0 =>
    rw [hfm] at hsome
    dsimp only at hsome
    cases har : aliasRepoFor mp0 known with
    | none => rw [har] at hsome; cases hsome
    | some rn0 =>
      rw [har] at hsome
      injection hsome with hpair
      have h1 : rn0 = (rn, mp').1 := by rw [← hpair]
      have h2 : mp0 = (rn, mp').2 := by rw [← hpair]
      dsimp only at h1 h2
      subst h1
      subst h2
      exact aliasRepoFor_spec mp0 known rn0 har

theorem C6_alias_invariant_witness :
    (∃ last, (pathParts (("internal.example.net/transform").toList)).getLast? = some last ∧
        last = ("transform").toList ∧ ("transform").toList ∈ [("transform").toList]) ∨
    (2 ≤ (pathParts (("internal.example.net/transform").toList)).length ∧
      ∃ last prev,
        (pathParts (("internal.example.net/transform").toList)).getLast? = some last ∧
        isSemverSuffix last = true ∧
        (pathParts (("internal.example.net/transform").toList)).dropLast.getLast?
          = some prev ∧
        prev = ("transform").toList ∧ ("transform").toList ∈ [("transform").toList]) :=
  C6_alias_invariant
    [⟨("transform").toList, [("module internal.example.net/transform\n").toList]⟩]
    [("transform").toList] (("transform").toList)
    (("internal.example.net/transform").toList) (by decide)

/-! Pattern/extractor builder (`build_extractors`, source lines 226-262).
The three compiled regexes are embedded as executable matchers: each
implements `finditer` for its pattern over the line, with case-insensitive
literal alternation (longest name first, as built), character classes, the
greedy optional `@version` suffix with backtracking, and `\b` word
boundaries. -/

/-- Python `\w` on the ASCII range. -/
def isWordChar (c : Char) : Bool := c.isAlphanum || c = '_'

/-- Whether position `i` of `s` holds a word character (false past the end). -/
def wordAt (s : Str) (i : Nat) : Bool :=
  match s[i]? with
  | some c => isWordChar c
  | none => false

/-- The `\b` assertion at position `i`: word-ness differs between the two
sides (start/end of string counting as non-word). -/
def boundaryAt (s : Str) (i : Nat) : Bool :=
  (match i with
   | 0 => false
   | j + 1 => wordAt s j) != wordAt s i

/-- Case-insensitive character comparison (`re.IGNORECASE` on ASCII). -/
def lowerEq (a b : Char) : Bool := asciiLower a = asciiLower b

/-- Match pattern `p` as a case-insensitive literal at the head of `s`,
returning the consumed text (with the line's own casing). -/
def matchLitCI : Str → Str → Option Str
  | [], _ => some []
  | _ :: _, [] => none
  | p :: ps, c :: cs =>
    if lowerEq p c then (matchLitCI ps cs).map (fun t => c :: t) else none

/-- Regex alternation of literals: first candidate (in pattern order) that
matches wins. -/
def matchAltCI (cands : List Str) (s : Str) : Option Str :=
  cands.findSome? (fun p => matchLitCI p s)

/-- Candidate end positions for the greedy optional `(?:@[\w.\-]+)?` at
position `j`: the longest `@`-suffix first, backing off one character at a
time, finally no suffix at all. -/
def verEnds (s : Str) (j : Nat) : List Nat :=
  (match s[j]? with
   | some '@' =>
     let run := ((s.drop (j + 1)).takeWhile
       (fun c => isWordChar c || c = '.' || c = '-')).length
     (List.range run).map (fun t => j + 1 + (run - t))
   | _ => []) ++ [j]

/-- One attempt of the alias pattern
`\b(?P<alias>{alias_alt})(?:@[\w.\-]+)?\b` at position `i`. -/
def tryAliasAt (aliases : List Str) (s : Str) (i : Nat) : Option (RMatch × Nat) :=
  if boundaryAt s i then
    aliases.findSome? (fun a =>
      match matchLitCI a (s.drop i) with
      | none => none
      | some t =>
        (verEnds s (i + a.length)).findSome? (fun e =>
          if boundaryAt s e then some (⟨none, none, some t⟩, e) else none))
  else none

/-- The `[A-Za-z0-9_.-]` class of the URL pattern's owner group. -/
def ownerChar (c : Char) : Bool :=
  c.isAlpha || c.isDigit || c = '_' || c = '.' || c = '-'

/-- One attempt of the URL pattern
`github\.com[:/](?P<owner>[A-Za-z0-9_.-]+)/(?P<repo>{alt})(?:\.git)?` at
position `i`. -/
def tryUrlAt (names : List Str) (s : Str) (i : Nat) : Option (RMatch × Nat) :=
  match matchLitCI (("github.com").toList) (s.drop i) with
  | none => none
  | some _ =>
    match s[i + 10]? with
    | some c =>
      if c = ':' ∨ c = '/' then
        let ownerRun := (s.drop (i + 11)).takeWhile ownerChar
        if ownerRun = [] then none
        else
          let k := i + 11 + ownerRun.length
          match s[k]? with
          | some '/' =>
            match matchAltCI names (s.drop (k + 1)) with
            | none => none
            | some rt =>
              let e := k + 1 + rt.length
              match matchLitCI ((".git").toList) (s.drop e) with
              | some _ => some (⟨some ownerRun, some rt, none⟩, e + 4)
              | none => some (⟨some ownerRun, some rt, none⟩, e)
          | _ => none
      else none
    | none => none

/-- The repo alternation with the optional `@`-suffix and closing `\b`,
backtracking across suffix lengths and then across alternatives. -/
def tryRepoAlt (names : List Str) (s : Str) (pos : Nat) : Option (Str × Nat) :=
  names.findSome? (fun n =>
    match matchLitCI n (s.drop pos) with
    | none => none
    | some rt =>
      (verEnds s (pos + n.length)).findSome? (fun e =>
        if boundaryAt s e then some (rt, e) else none))

/-- One attempt of the org pattern
`\b{org}/(?P<repo>{alt})(?:@[\w.\-]+)?\b` at position `i`. -/
def tryOrgAt (org : Str) (names : List Str) (s : Str) (i : Nat) : Option (RMatch × Nat) :=
  if boundaryAt s i then
    match matchLitCI org (s.drop i) with
    | none => none
    | some _ =>
      match s[i + org.length]? with
      | some '/' =>
        match tryRepoAlt names s (i + org.length + 1) with
        | none => none
        | some (rt, e) => some (⟨none, some rt, none⟩, e)
      | _ => none
  else none

/-- The `finditer` scan: try the pattern at each position, continuing after
the end of a match (and always advancing), bounded by the line length. -/
def finditerAux (step : Nat → Option (RMatch × Nat)) : Nat → Nat → List RMatch
  | 0, _ => []
  | fuel + 1, i =>
    match step i with
    | some (m, j) => m :: finditerAux step fuel (max j (i + 1))
    | none => finditerAux step fuel (i + 1)

/-- `pattern.finditer(line)`. -/
def finditer (step : Nat → Option (RMatch × Nat)) (s : Str) : List RMatch :=
  finditerAux step (s.length + 1) 0

/-- Stable insertion for `sorted(..., key=len, reverse=True)`. -/
def insLen (x : Str) : List Str → List Str
  | [] => [x]
  | y :: ys => if y.length ≤ x.length then x :: y :: ys else y :: insLen x ys

/-- `sorted(l, key=len, reverse=True)` (stable descending by length). -/
def sortLenDesc (l : List Str) : List Str := l.foldr insLen []

/-- Stable insertion for lexicographic `sorted(...)`. -/
def insLex (x : Str) : List Str → List Str
  | [] => [x]
  | y :: ys => if strLtB x y then x :: y :: ys else y :: insLex x ys

/-- Python `sorted(l)` on strings. -/
def sortLex (l : List Str) : List Str := l.foldr insLex []

/-- Python `"|".join(l)`, used only for the `if not alt` emptiness test. -/
def joinBar : List Str → Str
  | [] => []
  | [x] => x
  | x :: y :: rest => x ++ '|' :: joinBar (y :: rest)

/-- Dict store for `alias_to_repo[alias.lower()] = repo` (later writes for
the same key overwrite in place). -/
def dictSetStr (d : List (Str × Str)) (k v : Str) : List (Str × Str) :=
  match d with
  | [] => [(k, v)]
  | (k', v') :: rest => if k' = k then (k, v) :: rest else (k', v') :: dictSetStr rest k v

/-- Embedding of `build_extractors`: the URL extractor, the optional org
extractor (when a truthy org is configured) and the alias extractor with its
lowercased `alias_to_repo` table (when any alias exists).  The Python alias
set's unspecified iteration order is modelled as first-occurrence order,
which the subsequent sorts make irrelevant. -/
def build_extractors (repo_names : List Str) (org : Option Str)
    (module_aliases : Str → List Str) : List Extractor :=
  let sortedNames := sortLenDesc repo_names
  if joinBar sortedNames = [] then []
  else
    let urlExt : Extractor :=
      ⟨fun line => finditer (tryUrlAt sortedNames line) line, none⟩
    let exts1 : List Extractor :=
      match org with
      | some o =>
        if o = [] then [urlExt]
        else [urlExt, ⟨fun line => finditer (tryOrgAt o sortedNames line) line, none⟩]
      | none => [urlExt]
    let aliasRecords : List (Str × Str) :=
      (repo_names.map (fun repo =>
        (sortLex (module_aliases repo).dedup).map (fun a => (repo, a)))).flatten
    let alias_values : List Str := aliasRecords.map Prod.snd
    let alias_to_repo : List (Str × Str) :=
      aliasRecords.foldl (fun d p => dictSetStr d (strLower p.2) p.1) []
    if alias_values = [] then exts1
    else
      let aliasAlt := sortLenDesc alias_values.dedup
      exts1 ++ [⟨fun line => finditer (tryAliasAt aliasAlt line) line, some alias_to_repo⟩]

/-- The repo set of the round-trip scenario: one repository `transform`. -/
def knownTransform : List Str := [("transform").toList]

/-- The alias map collected from `transform` declaring
`module internal.example.net/transform`. -/
def transformAliases : Str → List Str :=
  collect_go_module_aliases
    [⟨("transform").toList, [("module internal.example.net/transform\n").toList]⟩]
    knownTransform

/-- The alias map collected from `transform` declaring
`module internal.example.net/pkg/transform/v2`. -/
def transformAliasesV2 : Str → List Str :=
  collect_go_module_aliases
    [⟨("transform").toList, [("module internal.example.net/pkg/transform/v2\n").toList]⟩]
    knownTransform

/-- The hit the scan of repository `consumer` produces from the resolved
target (second conjunct of the round trip). -/
def tHit : ResolvedHit :=
  { source := ("consumer").toList, target := ("transform").toList, owner := none,
    file := ("go.mod").toList, line_no := 3,
    line := ("require internal.example.net/transform v1.2.3").toList }

/-- C4: the alias round trip.  `collect_go_module_aliases` records the full
module path declared by repository `transform` as an alias of `transform`
(both for `internal.example.net/transform` and the `/pkg/transform/v2`
version-suffix form); `extract_targets` on a line containing the literal,
with extractors built from that alias map and `transform` known, resolves
the target `transform`; and folding the resulting hit from a second
repository `consumer` yields an edge `consumer → transform`. -/
theorem C4_alias_round_trip :
    transformAliases (("transform").toList)
      = [("internal.example.net/transform").toList] ∧
    extract_targets (("require internal.example.net/transform v1.2.3").toList)
        (build_extractors knownTransform none transformAliases) knownTransform
      = [(("transform").toList, none)] ∧
    occAt (buildEdges 5 [tHit]) ((("consumer").toList), (("transform").toList)) = 1 ∧
    transformAliasesV2 (("transform").toList)
      = [("internal.example.net/pkg/transform/v2").toList] ∧
    extract_targets (("require internal.example.net/pkg/transform/v2 v2.0.1").toList)
        (build_extractors knownTransform none transformAliasesV2) knownTransform
      = [(("transform").toList, none)] :=
  ⟨by decide, by decide, by decide, by decide, by decide⟩

/-! Reference parser (`parse_repo_ref`, source lines 65-82).  Each of the
three anchored regexes is embedded by its derived matching semantics on the
stripped line. -/

/-- The trailing `/?$` of the HTTPS pattern: strip one trailing slash. -/
def stripTrailSlash (s : Str) : Str :=
  if s.getLast? = some '/' then s.dropLast else s

/-- The semantics of `([^/]+?)(?:\.git)?$` on the repo segment: one trailing
`.git` is stripped exactly when a non-empty group prefix remains. -/
def stripDotGit (s : Str) : Str :=
  if 4 < s.length ∧ s.drop (s.length - 4) = (".git").toList then
    s.take (s.length - 4)
  else s

/-- Split at the first `/`, when one occurs. -/
def splitFirstSlash : Str → Option (Str × Str)
  | [] => none
  | c :: cs =>
    if c = '/' then some ([], cs)
    else (splitFirstSlash cs).map (fun p => (c :: p.1, p.2))

/-- The `([^/]+)/([^/]+?)(?:\.git)?/?$` tail of the HTTPS pattern, applied to
the text after `github.com/`. -/
def ownerRepoHttp (rest : Str) : Option (Str × Str) :=
  match splitFirstSlash (stripTrailSlash rest) with
  | none => none
  | some (owner, repoPart) =>
    if owner = [] ∨ repoPart = [] ∨ '/' ∈ repoPart then none
    else some (owner, stripDotGit repoPart)

/-- The match of `^https?://github\.com/([^/]+)/([^/]+?)(?:\.git)?/?$`. -/
def httpMatch (raw : Str) : Option (Str × Str) :=
  if strHasPre ("https://github.com/").toList raw then
    ownerRepoHttp (raw.drop 19)
  else if strHasPre ("http://github.com/").toList raw then
    ownerRepoHttp (raw.drop 18)
  else none

/-- The match of `^git@github\.com:([^/]+)/([^/]+?)(?:\.git)?$`. -/
def sshMatch (raw : Str) : Option (Str × Str) :=
  if strHasPre ("git@github.com:").toList raw then
    match splitFirstSlash (raw.drop 15) with
    | none => none
    | some (owner, repoPart) =>
      if owner = [] ∨ repoPart = [] ∨ '/' ∈ repoPart then none
      else some (owner, stripDotGit repoPart)
  else none

/-- Python `repo.removesuffix(".git")`: unconditional, may leave an empty
repo segment. -/
def removeSuffixGit (s : Str) : Str :=
  if 4 ≤ s.length ∧ s.drop (s.length - 4) = (".git").toList then
    s.take (s.length - 4)
  else s

/-- The match of `^([^/\s]+)/([^/\s]+)$` followed by the `.git` strip. -/
def bareMatch (raw : Str) : Option (Str × Str) :=
  match splitFirstSlash raw with
  | none => none
  | some (owner, repoPart) =>
    if owner = [] ∨ repoPart = [] ∨ '/' ∈ repoPart
        ∨ owner.any pyIsSpace ∨ repoPart.any pyIsSpace then none
    else some (owner, removeSuffixGit repoPart)

/-- Embedding of `parse_repo_ref` (source lines 65-82): strip the value,
discard blank lines and `#` comments, then try the HTTPS, SSH and bare
forms in order. -/
def parse_repo_ref (value : Str) : Option (Str × Str) :=
  let raw := pyStrip value
  if raw = [] then none
  else if strHasPre (("#").toList) raw then none
  else
    match httpMatch raw with
    | some p => some p
    | none =>
      match sshMatch raw with
      | some p => some p
      | none => bareMatch raw

/-- A well-behaved owner or repo segment: non-empty, without `/` and without
whitespace. -/
def goodSeg (s : Str) : Prop :=
  s ≠ [] ∧ ∀ c ∈ s, c ≠ '/' ∧ pyIsSpace c = false

instance (s : Str) : Decidable (goodSeg s) := by
  unfold goodSeg
  infer_instance

theorem strHasPre_iff_append (p s : Str) : strHasPre p s = true ↔ ∃ t, s = p ++ t := by
  induction p generalizing s with
  | nil =>
    simp [strHasPre]
  | cons c cs ih =>
    cases s with
    | nil =>
      simp [strHasPre]
    | cons b bs =>
      simp only [strHasPre, Bool.and_eq_true, decide_eq_true_eq, ih, List.cons_append,
        List.cons.injEq]
      constructor
      · rintro ⟨rfl, t, rfl⟩
        exact ⟨t, rfl, rfl⟩
      · rintro ⟨t, rfl, rfl⟩
        exact ⟨rfl, t, rfl⟩

theorem pyStrip_of_no_space (s : Str) (h : ∀ c ∈ s, pyIsSpace c = false) :
    pyStrip s = s := by
  have key : ∀ t : Str, (∀ c ∈ t, pyIsSpace c = false) → t.dropWhile pyIsSpace = t := by
    intro t ht
    cases t with
    | nil => rfl
    | cons c cs =>
      rw [List.dropWhile_cons, ht c (List.mem_cons.2 (Or.inl rfl))]
      simp
  rw [pyStrip, key s h, key s.reverse (fun c hc => h c (List.mem_reverse.mp hc)),
    List.reverse_reverse]

theorem nonempty_getLast? : ∀ l : Str, l ≠ [] → ∃ c ∈ l, l.getLast? = some c := by
  intro l
  induction l with
  | nil => intro h; exact absurd rfl h
  | cons x t ih =>
    intro _
    cases t with
    | nil => exact ⟨x, List.mem_cons.2 (Or.inl rfl), rfl⟩
    | cons y u =>
      obtain ⟨c, hc, he⟩ := ih (by simp)
      exact ⟨c, List.mem_cons.2 (Or.inr hc), by rw [List.getLast?_cons_cons, he]⟩

theorem getLast?_cons_ne_nil (a : Char) (l : Str) (h : l ≠ []) :
    (a :: l).getLast? = l.getLast? := by
  cases l with
  | nil => exact absurd rfl h
  | cons y u => exact List.getLast?_cons_cons

theorem splitFirstSlash_append (o r : Str) (ho : ∀ c ∈ o, c ≠ '/') :
    splitFirstSlash (o ++ '/' :: r) = some (o, r) := by
  induction o with
  | nil => simp [splitFirstSlash]
  | cons c cs ih =>
    have hc : c ≠ '/' := (ho c (List.mem_cons.2 (Or.inl rfl)))
    rw [List.cons_append, splitFirstSlash, if_neg hc,
      ih (fun c h => ho c (List.mem_cons.2 (Or.inr h)))]
    rfl

theorem stripTrail_bare (o r : Str) (hr : r ≠ []) (hr2 : ∀ c ∈ r, c ≠ '/') :
    stripTrailSlash (o ++ '/' :: r) = o ++ '/' :: r := by
  rw [stripTrailSlash, if_neg]
  intro hc
  rw [List.getLast?_append, getLast?_cons_ne_nil '/' r hr] at hc
  obtain ⟨c, hcm, hce⟩ := nonempty_getLast? r hr
  rw [hce] at hc
  have hcc : (some c : Option Char) = some '/' := hc
  injection hcc with hcc'
  exact (hr2 c hcm) hcc'

theorem stripTrail_slash (x : Str) : stripTrailSlash (x ++ ['/']) = x := by
  rw [stripTrailSlash, if_pos (List.getLast?_concat x), List.dropLast_concat]

theorem stripDotGit_append (r : Str) (hr : r ≠ []) :
    stripDotGit (r ++ (".git").toList) = r := by
  have hlen : (r ++ (".git").toList).length = r.length + 4 := by simp
  have hr0 : 0 < r.length := List.length_pos.mpr hr
  have harith : (r ++ (".git").toList).length - 4 = r.length := by omega
  rw [stripDotGit, if_pos, harith]
  · exact List.take_left r _
  · refine ⟨by omega, ?_⟩
    rw [harith]
    exact List.drop_left r _

theorem httpMatch_hash (cs : Str) : httpMatch ('#' :: cs) = none := by
  have h1 : strHasPre ("https://github.com/").toList ('#' :: cs) = false := rfl
  have h2 : strHasPre ("http://github.com/").toList ('#' :: cs) = false := rfl
  have h1' : ¬ (strHasPre ("https://github.com/").toList ('#' :: cs) = true) := by
    intro hc
    rw [h1] at hc
    cases hc
  have h2' : ¬ (strHasPre ("http://github.com/").toList ('#' :: cs) = true) := by
    intro hc
    rw [h2] at hc
    cases hc
  rw [httpMatch, if_neg h1', if_neg h2']

theorem sshMatch_hash (cs : Str) : sshMatch ('#' :: cs) = none := by
  have h1 : strHasPre ("git@github.com:").toList ('#' :: cs) = false := rfl
  have h1' : ¬ (strHasPre ("git@github.com:").toList ('#' :: cs) = true) := by
    intro hc
    rw [h1] at hc
    cases hc
  rw [sshMatch, if_neg h1']

theorem parse_of_http (v : Str) (p : Str × Str) (h : httpMatch (pyStrip v) = some p) :
    parse_repo_ref v = some p := by
  have hne : pyStrip v ≠ [] := by
    intro hc
    rw [hc] at h
    have hn : httpMatch [] = none := rfl
    rw [hn] at h
    cases h
  have hhash : ¬ (strHasPre (("#").toList) (pyStrip v) = true) := by
    intro hc
    obtain ⟨t, ht⟩ := (strHasPre_iff_append _ _).mp hc
    rw [ht] at h
    have hn : httpMatch ((("#").toList) ++ t) = none := httpMatch_hash t
    rw [hn] at h
    cases h
  simp only [parse_repo_ref]
  rw [if_neg hne, if_neg hhash, h]

theorem parse_of_ssh (v : Str) (p : Str × Str) (h0 : httpMatch (pyStrip v) = none)
    (h : sshMatch (pyStrip v) = some p) : parse_repo_ref v = some p := by
  have hne : pyStrip v ≠ [] := by
    intro hc
    rw [hc] at h
    have hn : sshMatch [] = none := rfl
    rw [hn] at h
    cases h
  have hhash : ¬ (strHasPre (("#").toList) (pyStrip v) = true) := by
    intro hc
    obtain ⟨t, ht⟩ := (strHasPre_iff_append _ _).mp hc
    rw [ht] at h
    have hn : sshMatch ((("#").toList) ++ t) = none := sshMatch_hash t
    rw [hn] at h
    cases h
  simp only [parse_repo_ref]
  rw [if_neg hne, if_neg hhash, h0, h]

theorem parse_of_none (v : Str) (h0 : httpMatch (pyStrip v) = none)
    (h1 : sshMatch (pyStrip v) = none) (h2 : bareMatch (pyStrip v) = none) :
    parse_repo_ref v = none := by
  simp only [parse_repo_ref]
  by_cases hne : pyStrip v = []
  · rw [if_pos hne]
  · rw [if_neg hne]
    by_cases hhash : strHasPre (("#").toList) (pyStrip v) = true
    · rw [if_pos hhash]
    · rw [if_neg hhash, h0, h1, h2]

theorem goodSeg_no_slash {s : Str} (h : goodSeg s) : '/' ∉ s :=
  fun hc => ((h.2 '/' hc).1) rfl

theorem httpMatch_plain (o r : Str) (ho : goodSeg o) (hr : goodSeg r) :
    httpMatch (("https://github.com/").toList ++ (o ++ ('/' :: r)))
      = some (o, stripDotGit r) := by
  rw [httpMatch, if_pos ((strHasPre_iff_append _ _).mpr ⟨_, rfl⟩)]
  have h19 : (("https://github.com/").toList).length = 19 := rfl
  have hdrop : (("https://github.com/").toList ++ (o ++ ('/' :: r))).drop 19
      = o ++ ('/' :: r) := by
    rw [← h19, List.drop_left]
  rw [hdrop, ownerRepoHttp.eq_def,
    stripTrail_bare o r hr.1 (fun c hc => (hr.2 c hc).1),
    splitFirstSlash_append o r (fun c hc => (ho.2 c hc).1)]
  dsimp only
  rw [if_neg]
  push_neg
  exact ⟨ho.1, hr.1, goodSeg_no_slash hr⟩

theorem httpMatch_slash (o r : Str) (ho : goodSeg o) (hr : goodSeg r) :
    httpMatch (("https://github.com/").toList ++ ((o ++ ('/' :: r)) ++ ['/']))
      = some (o, stripDotGit r) := by
  rw [httpMatch, if_pos ((strHasPre_iff_append _ _).mpr ⟨_, rfl⟩)]
  have h19 : (("https://github.com/").toList).length = 19 := rfl
  have hdrop : (("https://github.com/").toList ++ ((o ++ ('/' :: r)) ++ ['/'])).drop 19
      = (o ++ ('/' :: r)) ++ ['/'] := by
    rw [← h19, List.drop_left]
  rw [hdrop, ownerRepoHttp.eq_def, stripTrail_slash (o ++ ('/' :: r)),
    splitFirstSlash_append o r (fun c hc => (ho.2 c hc).1)]
  dsimp only
  rw [if_neg]
  push_neg
  exact ⟨ho.1, hr.1, goodSeg_no_slash hr⟩

theorem no_slash_dotgit (r : Str) (hr : goodSeg r) :
    ∀ c ∈ r ++ (".git").toList, c ≠ '/' := by
  have hgit : ∀ c ∈ (".git").toList, c ≠ '/' := by decide
  intro c hc
  rcases List.mem_append.mp hc with h | h
  · exact (hr.2 c h).1
  · exact hgit c h

theorem httpMatch_git (o r : Str) (ho : goodSeg o) (hr : goodSeg r) :
    httpMatch (("https://github.com/").toList ++ (o ++ ('/' :: (r ++ (".git").toList))))
      = some (o, r) := by
  rw [httpMatch, if_pos ((strHasPre_iff_append _ _).mpr ⟨_, rfl⟩)]
  have h19 : (("https://github.com/").toList).length = 19 := rfl
  have hdrop : (("https://github.com/").toList
        ++ (o ++ ('/' :: (r ++ (".git").toList)))).drop 19
      = o ++ ('/' :: (r ++ (".git").toList)) := by
    rw [← h19, List.drop_left]
  have hne : r ++ (".git").toList ≠ [] := by
    intro hc
    exact hr.1 (List.append_eq_nil.mp hc).1
  rw [hdrop, ownerRepoHttp.eq_def,
    stripTrail_bare o (r ++ (".git").toList) hne (no_slash_dotgit r hr),
    splitFirstSlash_append o (r ++ (".git").toList) (fun c hc => (ho.2 c hc).1)]
  dsimp only
  rw [if_neg, stripDotGit_append r hr.1]
  push_neg
  refine ⟨ho.1, hne, ?_⟩
  intro hc
  exact (no_slash_dotgit r hr '/' hc) rfl

theorem httpMatch_http_plain (o r : Str) (ho : goodSeg o) (hr : goodSeg r) :
    httpMatch (("http://github.com/").toList ++ (o ++ ('/' :: r)))
      = some (o, stripDotGit r) := by
  have e1 : strHasPre ("https://github.com/").toList
      (("http://github.com/").toList ++ (o ++ ('/' :: r))) = false := rfl
  rw [httpMatch, if_neg (by rw [e1]; exact Bool.false_ne_true),
    if_pos ((strHasPre_iff_append _ _).mpr ⟨_, rfl⟩)]
  have h18 : (("http://github.com/").toList).length = 18 := rfl
  have hdrop : (("http://github.com/").toList ++ (o ++ ('/' :: r))).drop 18
      = o ++ ('/' :: r) := by
    rw [← h18, List.drop_left]
  rw [hdrop, ownerRepoHttp.eq_def,
    stripTrail_bare o r hr.1 (fun c hc => (hr.2 c hc).1),
    splitFirstSlash_append o r (fun c hc => (ho.2 c hc).1)]
  dsimp only
  rw [if_neg]
  push_neg
  exact ⟨ho.1, hr.1, goodSeg_no_slash hr⟩

theorem httpMatch_http_slash (o r : Str) (ho : goodSeg o) (hr : goodSeg r) :
    httpMatch (("http://github.com/").toList ++ ((o ++ ('/' :: r)) ++ ['/']))
      = some (o, stripDotGit r) := by
  have e1 : strHasPre ("https://github.com/").toList
      (("http://github.com/").toList ++ ((o ++ ('/' :: r)) ++ ['/'])) = false := rfl
  rw [httpMatch, if_neg (by rw [e1]; exact Bool.false_ne_true),
    if_pos ((strHasPre_iff_append _ _).mpr ⟨_, rfl⟩)]
  have h18 : (("http://github.com/").toList).length = 18 := rfl
  have hdrop : (("http://github.com/").toList ++ ((o ++ ('/' :: r)) ++ ['/'])).drop 18
      = (o ++ ('/' :: r)) ++ ['/'] := by
    rw [← h18, List.drop_left]
  rw [hdrop, ownerRepoHttp.eq_def, stripTrail_slash (o ++ ('/' :: r)),
    splitFirstSlash_append o r (fun c hc => (ho.2 c hc).1)]
  dsimp only
  rw [if_neg]
  push_neg
  exact ⟨ho.1, hr.1, goodSeg_no_slash hr⟩

theorem httpMatch_http_git (o r : Str) (ho : goodSeg o) (hr : goodSeg r) :
    httpMatch (("http://github.com/").toList ++ (o ++ ('/' :: (r ++ (".git").toList))))
      = some (o, r) := by
  have e1 : strHasPre ("https://github.com/").toList
      (("http://github.com/").toList ++ (o ++ ('/' :: (r ++ (".git").toList))))
        = false := rfl
  rw [httpMatch, if_neg (by rw [e1]; exact Bool.false_ne_true),
    if_pos ((strHasPre_iff_append _ _).mpr ⟨_, rfl⟩)]
  have h18 : (("http://github.com/").toList).length = 18 := rfl
  have hdrop : (("http://github.com/").toList
        ++ (o ++ ('/' :: (r ++ (".git").toList)))).drop 18
      = o ++ ('/' :: (r ++ (".git").toList)) := by
    rw [← h18, List.drop_left]
  have hne : r ++ (".git").toList ≠ [] := by
    intro hc
    exact hr.1 (List.append_eq_nil.mp hc).1
  rw [hdrop, ownerRepoHttp.eq_def,
    stripTrail_bare o (r ++ (".git").toList) hne (no_slash_dotgit r hr),
    splitFirstSlash_append o (r ++ (".git").toList) (fun c hc => (ho.2 c hc).1)]
  dsimp only
  rw [if_neg, stripDotGit_append r hr.1]
  push_neg
  refine ⟨ho.1, hne, ?_⟩
  intro hc
  exact (no_slash_dotgit r hr '/' hc) rfl

theorem sshMatch_plain (o r : Str) (ho : goodSeg o) (hr : goodSeg r) :
    sshMatch (("git@github.com:").toList ++ (o ++ ('/' :: r)))
      = some (o, stripDotGit r) := by
  rw [sshMatch, if_pos ((strHasPre_iff_append _ _).mpr ⟨_, rfl⟩)]
  have h15 : (("git@github.com:").toList).length = 15 := rfl
  have hdrop : (("git@github.com:").toList ++ (o ++ ('/' :: r))).drop 15
      = o ++ ('/' :: r) := by
    rw [← h15, List.drop_left]
  rw [hdrop, splitFirstSlash_append o r (fun c hc => (ho.2 c hc).1)]
  dsimp only
  rw [if_neg]
  push_neg
  exact ⟨ho.1, hr.1, goodSeg_no_slash hr⟩

theorem sshMatch_git (o r : Str) (ho : goodSeg o) (hr : goodSeg r) :
    sshMatch (("git@github.com:").toList ++ (o ++ ('/' :: (r ++ (".git").toList))))
      = some (o, r) := by
  rw [sshMatch, if_pos ((strHasPre_iff_append _ _).mpr ⟨_, rfl⟩)]
  have h15 : (("git@github.com:").toList).length = 15 := rfl
  have hdrop : (("git@github.com:").toList
        ++ (o ++ ('/' :: (r ++ (".git").toList)))).drop 15
      = o ++ ('/' :: (r ++ (".git").toList)) := by
    rw [← h15, List.drop_left]
  have hne : r ++ (".git").toList ≠ [] := by
    intro hc
    exact hr.1 (List.append_eq_nil.mp hc).1
  rw [hdrop, splitFirstSlash_append o (r ++ (".git").toList) (fun c hc => (ho.2 c hc).1)]
  dsimp only
  rw [if_neg, stripDotGit_append r hr.1]
  push_neg
  refine ⟨ho.1, hne, ?_⟩
  intro hc
  exact (no_slash_dotgit r hr '/' hc) rfl

theorem bareMatch_form (o r : Str) (ho : goodSeg o) (hr : goodSeg r) :
    bareMatch (o ++ ('/' :: r)) = some (o, removeSuffixGit r) := by
  rw [bareMatch.eq_def, splitFirstSlash_append o r (fun c hc => (ho.2 c hc).1)]
  dsimp only
  rw [if_neg]
  push_neg
  refine ⟨ho.1, hr.1, goodSeg_no_slash hr, ?_, ?_⟩
  · intro hc
    obtain ⟨c, hcm, hcs⟩ := List.any_eq_true.mp hc
    rw [(ho.2 c hcm).2] at hcs
    cases hcs
  · intro hc
    obtain ⟨c, hcm, hcs⟩ := List.any_eq_true.mp hc
    rw [(hr.2 c hcm).2] at hcs
    cases hcs

theorem httpMatch_bare_none (o r : Str) (ho : ∀ c ∈ o, c ≠ '/') (hr : ∀ c ∈ r, c ≠ '/') :
    httpMatch (o ++ ('/' :: r)) = none := by
  have hcount : (o ++ ('/' :: r)).count '/' = 1 := by
    rw [List.count_append]
    have co : o.count '/' = 0 := by
      rw [List.count_eq_zero]
      intro hc
      exact (ho '/' hc) rfl
    have cr : r.count '/' = 0 := by
      rw [List.count_eq_zero]
      intro hc
      exact (hr '/' hc) rfl
    rw [co, List.count_cons_self, cr]
  have h1' : ¬ (strHasPre ("https://github.com/").toList (o ++ ('/' :: r)) = true) := by
    intro hc
    obtain ⟨t, ht⟩ := (strHasPre_iff_append _ _).mp hc
    have hcc := congrArg (fun l : Str => l.count '/') ht
    dsimp only at hcc
    rw [hcount, List.count_append] at hcc
    have hA : ((("https://github.com/").toList).count '/') = 3 := by decide
    rw [hA] at hcc
    omega
  have h2' : ¬ (strHasPre ("http://github.com/").toList (o ++ ('/' :: r)) = true) := by
    intro hc
    obtain ⟨t, ht⟩ := (strHasPre_iff_append _ _).mp hc
    have hcc := congrArg (fun l : Str => l.count '/') ht
    dsimp only at hcc
    rw [hcount, List.count_append] at hcc
    have hA : ((("http://github.com/").toList).count '/') = 3 := by decide
    rw [hA] at hcc
    omega
  rw [httpMatch, if_neg h1', if_neg h2']

/-- C9 (as amended): the claim as frozen says the first recognized form is
the HTTPS URL form, but the source regex (line 70) is `^https?://`, so
`http://github.com/a/b` also parses — see the counterexample
`C9_http_scheme_counterexample`.  Amended claim: `parse_repo_ref` recognizes
exactly three reference forms, tried in priority order — the URL form with
scheme matching `https?://` (both `https://` and `http://`), host
`github.com`, optional `.git` suffix and optional trailing slash; the SSH
form with optional `.git`; and the bare `owner/repo` shorthand (no further
slashes, no embedded whitespace) with a trailing `.git` stripped from the
repo segment — returning the pair of the first matching form; blank lines,
lines beginning with `#`, and lines matching none of the three forms yield
nothing. -/
theorem C9_parse_repo_ref :
    (∀ v : Str, pyStrip v = [] → parse_repo_ref v = none) ∧
    (∀ (v rest : Str), pyStrip v = '#' :: rest → parse_repo_ref v = none) ∧
    (∀ o r : Str, goodSeg o → goodSeg r →
      parse_repo_ref (("https://github.com/").toList ++ (o ++ ('/' :: r)))
          = some (o, stripDotGit r) ∧
      parse_repo_ref (("https://github.com/").toList ++ ((o ++ ('/' :: r)) ++ ['/']))
          = some (o, stripDotGit r) ∧
      parse_repo_ref (("https://github.com/").toList
            ++ (o ++ ('/' :: (r ++ (".git").toList))))
          = some (o, r)) ∧
    (∀ o r : Str, goodSeg o → goodSeg r →
      parse_repo_ref (("http://github.com/").toList ++ (o ++ ('/' :: r)))
          = some (o, stripDotGit r) ∧
      parse_repo_ref (("http://github.com/").toList ++ ((o ++ ('/' :: r)) ++ ['/']))
          = some (o, stripDotGit r) ∧
      parse_repo_ref (("http://github.com/").toList
            ++ (o ++ ('/' :: (r ++ (".git").toList))))
          = some (o, r)) ∧
    (∀ o r : Str, goodSeg o → goodSeg r →
      parse_repo_ref (("git@github.com:").toList ++ (o ++ ('/' :: r)))
          = some (o, stripDotGit r) ∧
      parse_repo_ref (("git@github.com:").toList
            ++ (o ++ ('/' :: (r ++ (".git").toList))))
          = some (o, r)) ∧
    (∀ o r : Str, goodSeg o → goodSeg r → o.head? ≠ some '#' →
      strHasPre (("git@github.com:").toList) (o ++ ('/' :: r)) = false →
      parse_repo_ref (o ++ ('/' :: r)) = some (o, removeSuffixGit r)) ∧
    (∀ (v : Str) (p : Str × Str), httpMatch (pyStrip v) = some p →
      parse_repo_ref v = some p) ∧
    (∀ (v : Str) (p : Str × Str), httpMatch (pyStrip v) = none →
      sshMatch (pyStrip v) = some p → parse_repo_ref v = some p) ∧
    (∀ v : Str, httpMatch (pyStrip v) = none → sshMatch (pyStrip v) = none →
      bareMatch (pyStrip v) = none → parse_repo_ref v = none) := by
  have hlit : ∀ c ∈ ("https://github.com/").toList, pyIsSpace c = false := by decide
  have hlit2 : ∀ c ∈ ("http://github.com/").toList, pyIsSpace c = false := by decide
  have hssh0 : ∀ c ∈ ("git@github.com:").toList, pyIsSpace c = false := by decide
  have hgit : ∀ c ∈ (".git").toList, pyIsSpace c = false := by decide
  have hsl : pyIsSpace '/' = false := by decide
  refine ⟨?_, ?_, ?_, ?_, ?_, ?_, parse_of_http, parse_of_ssh, parse_of_none⟩
  · intro v h
    simp only [parse_repo_ref]
    rw [if_pos h]
  · intro v rest h
    have hne : ¬ (pyStrip v = []) := by
      rw [h]
      simp
    have hhash : strHasPre (("#").toList) (pyStrip v) = true := by
      rw [h]
      rfl
    simp only [parse_repo_ref]
    rw [if_neg hne, if_pos hhash]
  · intro o r ho hr
    refine ⟨parse_of_http _ _ ?_, parse_of_http _ _ ?_, parse_of_http _ _ ?_⟩
    · rw [pyStrip_of_no_space]
      · exact httpMatch_plain o r ho hr
      · intro c hc
        rcases List.mem_append.mp hc with h | h
        · exact hlit c h
        rcases List.mem_append.mp h with h | h
        · exact (ho.2 c h).2
        rcases List.mem_cons.mp h with rfl | h
        · exact hsl
        · exact (hr.2 c h).2
    · rw [pyStrip_of_no_space]
      · exact httpMatch_slash o r ho hr
      · intro c hc
        rcases List.mem_append.mp hc with h | h
        · exact hlit c h
        rcases List.mem_append.mp h with h | h
        · rcases List.mem_append.mp h with h | h
          · exact (ho.2 c h).2
          rcases List.mem_cons.mp h with rfl | h
          · exact hsl
          · exact (hr.2 c h).2
        · rw [List.mem_singleton.mp h]
          exact hsl
    · rw [pyStrip_of_no_space]
      · exact httpMatch_git o r ho hr
      · intro c hc
        rcases List.mem_append.mp hc with h | h
        · exact hlit c h
        rcases List.mem_append.mp h with h | h
        · exact (ho.2 c h).2
        rcases List.mem_cons.mp h with rfl | h
        · exact hsl
        rcases List.mem_append.mp h with h | h
        · exact (hr.2 c h).2
        · exact hgit c h
  · intro o r ho hr
    refine ⟨parse_of_http _ _ ?_, parse_of_http _ _ ?_, parse_of_http _ _ ?_⟩
    · rw [pyStrip_of_no_space]
      · exact httpMatch_http_plain o r ho hr
      · intro c hc
        rcases List.mem_append.mp hc with h | h
        · exact hlit2 c h
        rcases List.mem_append.mp h with h | h
        · exact (ho.2 c h).2
        rcases List.mem_cons.mp h with rfl | h
        · exact hsl
        · exact (hr.2 c h).2
    · rw [pyStrip_of_no_space]
      · exact httpMatch_http_slash o r ho hr
      · intro c hc
        rcases List.mem_append.mp hc with h | h
        · exact hlit2 c h
        rcases List.mem_append.mp h with h | h
        · rcases List.mem_append.mp h with h | h
          · exact (ho.2 c h).2
          rcases List.mem_cons.mp h with rfl | h
          · exact hsl
          · exact (hr.2 c h).2
        · rw [List.mem_singleton.mp h]
          exact hsl
    · rw [pyStrip_of_no_space]
      · exact httpMatch_http_git o r ho hr
      · intro c hc
        rcases List.mem_append.mp hc with h | h
        · exact hlit2 c h
        rcases List.mem_append.mp h with h | h
        · exact (ho.2 c h).2
        rcases List.mem_cons.mp h with rfl | h
        · exact hsl
        rcases List.mem_append.mp h with h | h
        · exact (hr.2 c h).2
        · exact hgit c h
  · intro o r ho hr
    have hplain : ∀ c ∈ ("git@github.com:").toList ++ (o ++ ('/' :: r)),
        pyIsSpace c = false := by
      intro c hc
      rcases List.mem_append.mp hc with h | h
      · exact hssh0 c h
      rcases List.mem_append.mp h with h | h
      · exact (ho.2 c h).2
      rcases List.mem_cons.mp h with rfl | h
      · exact hsl
      · exact (hr.2 c h).2
    have hgits : ∀ c ∈ ("git@github.com:").toList
        ++ (o ++ ('/' :: (r ++ (".git").toList))), pyIsSpace c = false := by
      intro c hc
      rcases List.mem_append.mp hc with h | h
      · exact hssh0 c h
      rcases List.mem_append.mp h with h | h
      · exact (ho.2 c h).2
      rcases List.mem_cons.mp h with rfl | h
      · exact hsl
      rcases List.mem_append.mp h with h | h
      · exact (hr.2 c h).2
      · exact hgit c h
    have hh1 : httpMatch (("git@github.com:").toList ++ (o ++ ('/' :: r))) = none := by
      have e1 : strHasPre ("https://github.com/").toList
          (("git@github.com:").toList ++ (o ++ ('/' :: r))) = false := rfl
      have e2 : strHasPre ("http://github.com/").toList
          (("git@github.com:").toList ++ (o ++ ('/' :: r))) = false := rfl
      rw [httpMatch, if_neg (by rw [e1]; exact Bool.false_ne_true),
        if_neg (by rw [e2]; exact Bool.false_ne_true)]
    have hh2 : httpMatch (("git@github.com:").toList
        ++ (o ++ ('/' :: (r ++ (".git").toList)))) = none := by
      have e1 : strHasPre ("https://github.com/").toList
          (("git@github.com:").toList ++ (o ++ ('/' :: (r ++ (".git").toList))))
            = false := rfl
      have e2 : strHasPre ("http://github.com/").toList
          (("git@github.com:").toList ++ (o ++ ('/' :: (r ++ (".git").toList))))
            = false := rfl
      rw [httpMatch, if_neg (by rw [e1]; exact Bool.false_ne_true),
        if_neg (by rw [e2]; exact Bool.false_ne_true)]
    constructor
    · apply parse_of_ssh
      · rw [pyStrip_of_no_space _ hplain]
        exact hh1
      · rw [pyStrip_of_no_space _ hplain]
        exact sshMatch_plain o r ho hr
    · apply parse_of_ssh
      · rw [pyStrip_of_no_space _ hgits]
        exact hh2
      · rw [pyStrip_of_no_space _ hgits]
        exact sshMatch_git o r ho hr
  · intro o r ho hr hhead hssh
    have hne : ¬ (o ++ ('/' :: r) = []) := by
      intro hc
      exact ho.1 (List.append_eq_nil.mp hc).1
    have hns : ∀ c ∈ o ++ ('/' :: r), pyIsSpace c = false := by
      intro c hc
      rcases List.mem_append.mp hc with h | h
      · exact (ho.2 c h).2
      rcases List.mem_cons.mp h with rfl | h
      · exact hsl
      · exact (hr.2 c h).2
    have hstrip : pyStrip (o ++ ('/' :: r)) = o ++ ('/' :: r) :=
      pyStrip_of_no_space _ hns
    have hhttp : httpMatch (o ++ ('/' :: r)) = none :=
      httpMatch_bare_none o r (fun c hc => (ho.2 c hc).1) (fun c hc => (hr.2 c hc).1)
    have hsshn : sshMatch (o ++ ('/' :: r)) = none := by
      rw [sshMatch, if_neg]
      intro hc
      rw [hssh] at hc
      cases hc
    have hhashn : ¬ (strHasPre (("#").toList) (o ++ ('/' :: r)) = true) := by
      intro hc
      obtain ⟨t, ht⟩ := (strHasPre_iff_append _ _).mp hc
      cases ho0 : o with
      | nil => exact ho.1 ho0
      | cons c0 o' =>
        rw [ho0, List.cons_append] at ht
        have ht' : c0 :: (o' ++ ('/' :: r)) = '#' :: t := ht
        injection ht' with h1 h2
        apply hhead
        rw [ho0, h1]
        rfl
    simp only [parse_repo_ref]
    rw [hstrip, if_neg hne, if_neg hhashn, hhttp, hsshn, bareMatch_form o r ho hr]

theorem C9_parse_repo_ref_witness :
    parse_repo_ref (("https://github.com/").toList
        ++ ((("example-org").toList) ++ ('/' :: (("widgets").toList))))
      = some ((("example-org").toList), stripDotGit (("widgets").toList)) ∧
    parse_repo_ref (("http://github.com/").toList
        ++ ((("example-org").toList) ++ ('/' :: (("widgets").toList))))
      = some ((("example-org").toList), stripDotGit (("widgets").toList)) ∧
    parse_repo_ref ((("example-org").toList) ++ ('/' :: (("widgets.git").toList)))
      = some ((("example-org").toList), removeSuffixGit (("widgets.git").toList)) :=
  ⟨(C9_parse_repo_ref.2.2.1 (("example-org").toList) (("widgets").toList)
      (by decide) (by decide)).1,
   (C9_parse_repo_ref.2.2.2.1 (("example-org").toList) (("widgets").toList)
      (by decide) (by decide)).1,
   C9_parse_repo_ref.2.2.2.2.2.1 (("example-org").toList) (("widgets.git").toList)
      (by decide) (by decide) (by decide) (by decide)⟩

/-- C9 counterexample to the claim as frozen: the claim names the HTTPS URL
form `https://github.com/<owner>/<repo>` as the only URL form and says lines
matching none of the three forms yield nothing, yet the source regex is
`^https?://`, so the line `http://github.com/a/b` — which is none of the
three claimed forms — parses to `(a, b)`. -/
theorem C9_http_scheme_counterexample :
    parse_repo_ref (("http://github.com/a/b").toList)
      = some ((("a").toList), (("b").toList)) := by decide

end CrossRepoMap
